import Mathlib

/-!
Verification development for the geoh5py drillhole merge engine.

The definitions below are a shallow embedding of `geoh5py/shared/utils.py`
(`match_values`, `merge_arrays`) and `geoh5py/objects/drillhole.py`
(`Drillhole.add_data`, `validate_log_data`, `validate_interval_data`,
`sort_depths`).  Numeric arrays are modelled as `List ℚ`; NaN-able value
arrays as `List (Option ℚ)` with `none` playing the role of `numpy.nan`;
fallible numpy operations return `Option`/`Except`.
-/

namespace Geoh5

/- Batteries marks the rational-number arithmetic irreducible; re-enable
unfolding so that closed computations in witnesses and counterexamples can
be checked by kernel reduction (decide). -/
attribute [local semireducible] Rat.add Rat.sub Rat.mul Rat.inv
  Rat.ofScientific

/-- Integer indexing with numpy semantics: a negative index `i` with
`-len ≤ i < 0` wraps around to `len + i`; anything further out of bounds
raises (here: `none`). -/
def npGet? (l : List α) (i : Int) : Option α :=
  if 0 ≤ i then l.get? i.toNat
  else if 0 ≤ i + l.length then l.get? (i + l.length).toNat
  else none

/-- The non-negative position that a numpy index `i` denotes in an array of
length `n` (meaningful when `-n ≤ i < n`). -/
def wrapIdx (n : Nat) (i : Int) : Nat :=
  if 0 ≤ i then i.toNat else (i + n).toNat

/-- Embedding of `numpy.argsort`: the list of indices `0..len-1` sorted by
the values they point at.  `numpy` uses an unstable quicksort; we use the
stable `insertionSort`, which is one admissible sorting permutation (no
claim below depends on the order of ties). -/
def argsort [LinearOrder α] [Inhabited α] (l : List α) : List Nat :=
  List.insertionSort (fun i j => l.getD i default ≤ l.getD j default)
    (List.range l.length)

/-- Embedding of `numpy.searchsorted(a, v, side="right")`.  On the sorted
arrays it is applied to in `match_values`, the right-insertion index is
exactly the number of entries `≤ v`. -/
def searchsortedRight (l : List ℚ) (v : ℚ) : Nat :=
  l.countP fun a => decide (a ≤ v)

/-- Embedding of `numpy.delete(l, cols)`: drop the listed positions
(duplicates in `cols` count once). -/
def npDelete (l : List α) (cols : List Nat) : List α :=
  (List.range l.length).filterMap fun k =>
    if k ∈ cols then none else l.get? k

/-- One candidate comparison of `match_values`: at sorted-position `pos`
(a possibly negative numpy index) compare `sortedA[pos]` with the query `b`
and, on a hit, emit the pair (original index of `A`, query index `j`).
Out-of-bounds indexing propagates as `none` (an `IndexError`). -/
def candPair (p : List Nat) (sortedA : List ℚ) (b ε : ℚ) (j : Nat)
    (pos : Int) : Option (List (Nat × Nat)) := do
  let a ← npGet? sortedA pos
  let i ← npGet? p pos
  pure (if |a - b| < ε then [(i, j)] else [])

/-- The clamped position `ind` that `match_values` computes for query `j`:
`min(searchsorted(A_sorted, B[j], side="right"), len(A) - 1)`.  The
`np.minimum` with `vec_a.shape[0] - 1` is computed in ℤ, so an empty `A`
yields position `-1`. -/
def rIdx (A B : List ℚ) (j : Nat) : Int :=
  min (searchsortedRight ((argsort A).map fun k => A.getD k 0) (B.getD j 0) :
    Int) ((A.length : Int) - 1)

/-- The two candidate comparisons `match_values` performs for query index
`j`: positions `ind` and `ind - 1`.  Pairs are emitted in the row-major
order of `np.where`. -/
def matchRow (A B : List ℚ) (ε : ℚ) (j : Nat) : Option (List (Nat × Nat)) := do
  let p := argsort A
  let sA := p.map fun k => A.getD k 0
  let b := B.getD j 0
  let r : Int := rIdx A B j
  let c0 ← candPair p sA b ε j r
  let c1 ← candPair p sA b ε j (r - 1)
  pure (c0 ++ c1)

/-- Embedding of `geoh5py.shared.utils.match_values(vec_a, vec_b, ε)`:
index pairs `(i, j)` with `|A[i] - B[j]| < ε`, where each query value is
compared only against the two candidate positions of `matchRow`.  Returns
`none` when the underlying numpy indexing raises (empty `A`, nonempty
`B`). -/
def match_values (A B : List ℚ) (ε : ℚ) : Option (List (Nat × Nat)) := do
  let rows ← (List.range B.length).mapM (matchRow A B ε)
  pure rows.flatten

/-- The pure core of `merge_arrays` once the index mapping is known: with
`replace="B->A"` (`btoa = true`) the matched `head` entries are overwritten
by the corresponding `tail` values (later mapping rows win, as for numpy
fancy assignment with duplicate indices); the matched `tail` entries are
deleted; the remaining tail is appended.  With the default
`replace="A->B"` the head is kept (the overwrite of `tail` happens on
entries that are deleted from the returned array; it survives only as the
in-place effect captured by `mergeArraysPost`). -/
def mergeApply [Inhabited α] (head tail : List α)
    (mapping : List (Nat × Nat)) (btoa : Bool) : List α :=
  if mapping.length = 0 then head ++ tail
  else
    (if btoa then
        mapping.foldl (fun h ij => h.set ij.1 (tail.getD ij.2 default)) head
      else head) ++ npDelete tail (mapping.map Prod.snd)

/-- Embedding of `merge_arrays(head, tail, collocation_distance=ε,
return_mapping=True)` with the default `replace="A->B"`: computes the
mapping with `match_values` and merges.  `none` when `match_values`
raises. -/
def merge_arrays (head tail : List ℚ) (ε : ℚ) :
    Option (List ℚ × List (Nat × Nat)) :=
  (match_values head tail ε).map fun m => (mergeApply head tail m false, m)

/-- Contents of the caller's `(head, tail)` arrays after `merge_arrays`
returns: the function mutates its arguments in place.  With
`replace="B->A"` the matched head entries now hold tail values; with the
default `replace="A->B"` the matched tail entries now hold head values
(`tail = np.delete(tail, ...)` only rebinds the local name, the caller's
array keeps its length). -/
def mergeArraysPost [Inhabited α] (head tail : List α)
    (mapping : List (Nat × Nat)) (btoa : Bool) : List α × List α :=
  if mapping.length = 0 then (head, tail)
  else if btoa then
    (mapping.foldl (fun h ij => h.set ij.1 (tail.getD ij.2 default)) head,
      tail)
  else
    (head,
      mapping.foldl (fun t ij => t.set ij.2 (head.getD ij.1 default)) tail)

/-! The drillhole entity.

Vertices are 3-D points produced by `Drillhole.desurvey`; every claim
below depends only on which depth each vertex was desurveyed from, never
on the trigonometric coordinate computation (floating-point trig), so the
point type is an abstract parameter `V` and desurveying a single depth is
an abstract map `dsv : ℚ → V` (the source's `desurvey` returns one point
per query depth).  Data children are represented by their values arrays:
`depth` for the `DEPTH` child, `vdata` for the other per-vertex (`VERTEX`)
children in creation order, `fromv`/`tov` for `FROM`/`TO`, `cdata` for the
other per-cell (`CELL`) children and `odata` for `OBJECT`-association
children. -/

/-- Errors raised during ingestion.  The first six mirror assertions and
exceptions of the source; `unmodeledNaN` marks the one branch outside this
rational-number model (log data first added to a drillhole whose vertices
pre-exist from interval-only data: the source then pads `DEPTH` with
float NaN). -/
inductive IngestError where
  | missingValues | invalidTolerance | missingAssociation
  | shapeMismatch | notPairwise | missingPath
  | matchIndexError | cellMapMismatch | brokenState
  | unmodeledNaN
  deriving DecidableEq

/-- Equality of ingestion results is decidable (used to evaluate the
concrete scenarios). -/
instance [DecidableEq ε] [DecidableEq α] : DecidableEq (Except ε α) := fun
  | .ok a, .ok b =>
    decidable_of_iff (a = b) ⟨fun h => by rw [h], Except.ok.inj⟩
  | .ok _, .error _ => .isFalse Except.noConfusion
  | .error _, .ok _ => .isFalse Except.noConfusion
  | .error a, .error b =>
    decidable_of_iff (a = b) ⟨fun h => by rw [h], Except.error.inj⟩

/-- In-memory state of a `Drillhole` entity together with its data
children. -/
structure DH (V : Type) where
  /-- Both `collar` and `surveys` are set (required by `desurvey`). -/
  path : Bool
  vertices : List V
  cells : List (Nat × Nat)
  /-- A `DEPTH` child entity exists (its values may not be set yet). -/
  depthCreated : Bool
  /-- Values of the `DEPTH` child. -/
  depth : Option (List ℚ)
  /-- Values of the other `VERTEX`-association children, creation order. -/
  vdata : List (List (Option ℚ))
  fromv : Option (List ℚ)
  tov : Option (List ℚ)
  /-- Values of `CELL`-association children other than `FROM`/`TO`. -/
  cdata : List (List (Option ℚ))
  /-- Values of `OBJECT`-association children. -/
  odata : List (List ℚ)
  deriving DecidableEq

/-- The empty drillhole with collar and surveys set: the start state for
ingestion sequences. -/
def dh0 : DH ℚ :=
  { path := true, vertices := [], cells := [], depthCreated := false,
    depth := none, vdata := [], fromv := none, tov := none, cdata := [],
    odata := [] }

/-- Embedding of `Drillhole.desurvey`: one point per query depth; asserts
that collar and surveys are present. -/
def desurvey (dsv : ℚ → V) (s : DH V) (depths : List ℚ) :
    Except IngestError (List V) :=
  if s.path then .ok (depths.map dsv) else .error .missingPath

/-- Embedding of `Drillhole.add_vertices`: append points, return their
indices. -/
def addVertices (s : DH V) (xyz : List V) : List Nat × DH V :=
  ((List.range xyz.length).map (· + s.vertices.length),
    { s with vertices := s.vertices ++ xyz })

/-- Embedding of `Drillhole.validate_log_data`.  Returns the updated state
and the values vector for the new data child; errors carry the state at
the moment the exception is raised. -/
def validate_log_data (dsv : ℚ → V) (s : DH V) (depth vals : List ℚ)
    (ε : ℚ) : Except (IngestError × DH V) (DH V × List (Option ℚ)) :=
  if depth.length ≠ vals.length then .error (.shapeMismatch, s)
  else
    -- if self._depth is None: create the DEPTH child
    let s1 : DH V := { s with depthCreated := true }
    match s1.depth with
    | none =>
      -- first data appended
      match desurvey dsv s1 depth with
      | .error e => .error (e, s1)
      | .ok xyz =>
        let s2 := (addVertices s1 xyz).2
        -- the source prepends one NaN per pre-existing vertex to both
        -- DEPTH and the values; a NaN-valued DEPTH is outside this
        -- rational model, so that case is marked unmodeled
        if s1.vertices.length = 0 then
          .ok ({ s2 with depth := some depth }, vals.map some)
        else .error (.unmodeledNaN, s2)
    | some d =>
      match merge_arrays d depth ε with
      | none => .error (.matchIndexError, s1)
      | some (depths, m) =>
        let values := mergeApply
          (List.replicate s1.vertices.length (none : Option ℚ))
          (vals.map some) m true
        match desurvey dsv s1 (npDelete depth (m.map Prod.snd)) with
        | .error e => .error (e, s1)
        | .ok xyz =>
          let s2 := (addVertices s1 xyz).2
          .ok ({ s2 with depth := some depths }, values)

/-- Column-wise numpy fancy assignment `arr[pairs[:,0], c] = pairs[:,1]`
into a fresh NaN column of length `len` (later duplicate indices win). -/
def colAssign (len : Nat) (pairs : List (Nat × Nat)) : List (Option Nat) :=
  pairs.foldl (fun a ij => a.set ij.1 (some ij.2)) (List.replicate len none)

/-- Same with the pair roles swapped:
`arr[pairs[:,1], c] = pairs[:,0]`. -/
def colAssignRev (len : Nat) (pairs : List (Nat × Nat)) : List (Option Nat) :=
  pairs.foldl (fun a ij => a.set ij.2 (some ij.1)) (List.replicate len none)

/-- Rows where the two sentinel columns hold the same non-NaN value:
`np.where(col0 == col1)` with NaN never equal to anything. -/
def sentinelEqRows (c0 c1 : List (Option Nat)) : List Nat :=
  (List.range c0.length).filter fun i =>
    match c0.getD i none, c1.getD i none with
    | some a, some b => decide (a = b)
    | _, _ => false

/-- Embedding of `np.unique` on a flat array: sorted distinct values. -/
def npUnique (l : List ℚ) : List ℚ :=
  l.dedup.insertionSort (fun a b => a ≤ b)

/-- Split a flat list into consecutive pairs (`reshape((-1, 2))`). -/
def pairup : List α → List (α × α)
  | a :: b :: rest => (a, b) :: pairup rest
  | _ => []

/-- Embedding of `Drillhole.validate_interval_data`. -/
def validate_interval_data (dsv : ℚ → V) (s : DH V)
    (from_to : List (List ℚ)) (vals : List ℚ) (ε : ℚ) :
    Except (IngestError × DH V) (DH V × List (Option ℚ)) :=
  if from_to.length ≠ vals.length then .error (.shapeMismatch, s)
  else if ¬ from_to.all fun r => r.length = 2 then .error (.notPairwise, s)
  else
    let ft : List (ℚ × ℚ) := from_to.map fun r => (r.getD 0 0, r.getD 1 0)
    match s.fromv, s.tov with
    | none, none =>
      -- first interval batch
      let flat := (ft.map fun pr => [pr.1, pr.2]).flatten
      let uni := npUnique flat
      match desurvey dsv s uni with
      | .error e => .error (e, s)
      | .ok xyz =>
        let base := s.vertices.length
        let s2 := (addVertices s xyz).2
        let cells := pairup (flat.map fun v => base + uni.indexOf v)
        .ok ({ s2 with
                 cells := cells
                 fromv := some (ft.map Prod.fst)
                 tov := some (ft.map Prod.snd) },
          vals.map some)
    | some f, some t =>
      match match_values f (ft.map Prod.fst) ε with
      | none => .error (.matchIndexError, s)
      | some from_ind =>
      match match_values t (ft.map Prod.snd) ε with
      | none => .error (.matchIndexError, s)
      | some to_ind =>
        let M := f.length
        let N := ft.length
        let rowsIn := sentinelEqRows (colAssign M from_ind)
          (colAssign M to_ind)
        let rowsOut := sentinelEqRows (colAssignRev N from_ind)
          (colAssignRev N to_ind)
        -- np.c_ raises when the two index lists have different lengths
        if rowsIn.length ≠ rowsOut.length then .error (.cellMapMismatch, s)
        else
          let cell_map := rowsIn.zip rowsOut
          -- vert_new: endpoints that matched no existing segment endpoint
          let vnew0 := from_ind.foldl (fun a ij => a.set ij.2 false)
            (List.replicate N true)
          let vnew1 := to_ind.foldl (fun a ij => a.set ij.2 false)
            (List.replicate N true)
          let vflat := ((List.range N).map fun j =>
            [vnew0.getD j true, vnew1.getD j true]).flatten
          let ftflat := ((ft.map fun pr => [pr.1, pr.2]).flatten)
          let ind_new := (List.range (2 * N)).filter fun k =>
            vflat.getD k true
          let uni_new := npUnique (ind_new.map fun k => ftflat.getD k 0)
          match desurvey dsv s (uni_new) with
          | .error e => .error (e, s)
          | .ok xyz =>
            let base := s.vertices.length
            let s2 := (addVertices s xyz).2
            let nc : List (Option Nat) := (List.range (2 * N)).map fun k =>
              if vflat.getD k true then
                some (base + uni_new.indexOf (ftflat.getD k 0))
              else none
            let col0 := from_ind.foldl
              (fun a ij => a.set ij.2 (some (s.cells.getD ij.1 (0, 0)).1))
              ((List.range N).map fun j => nc.getD (2 * j) none)
            let col1 := to_ind.foldl
              (fun a ij => a.set ij.2 (some (s.cells.getD ij.1 (0, 0)).2))
              ((List.range N).map fun j => nc.getD (2 * j + 1) none)
            let newCells := npDelete
              ((List.range N).map fun j =>
                ((col0.getD j none).getD 0, (col1.getD j none).getD 0))
              (cell_map.map Prod.snd)
            let values := mergeApply
              (List.replicate s.cells.length (none : Option ℚ))
              (vals.map some) cell_map true
            let f' := mergeApply f (ft.map Prod.fst) cell_map false
            let t' := mergeApply t (ft.map Prod.snd) cell_map false
            .ok ({ s2 with
                     cells := s2.cells ++ newCells
                     fromv := some f'
                     tov := some t' }, values)
    | _, _ =>
      -- only one of FROM/TO present: the source would crash dereferencing
      -- the missing one
      .error (.brokenState, s)

/-- One entry of the dictionary passed to `Drillhole.add_data`. -/
structure DataAttr where
  values : Option (List ℚ)
  depth : Option (List ℚ)
  fromTo : Option (List (List ℚ))
  association : Option String
  collocation : Option ℚ
  deriving DecidableEq

/-- A log-data item for `add_data`. -/
def logItem (depth vals : List ℚ) (ε : ℚ) : DataAttr :=
  { values := some vals, depth := some depth, fromTo := none,
    association := none, collocation := some ε }

/-- An interval-data item for `add_data`. -/
def intervalItem (from_to : List (List ℚ)) (vals : List ℚ) (ε : ℚ) :
    DataAttr :=
  { values := some vals, depth := none, fromTo := some from_to,
    association := none, collocation := some ε }

/-- Processing of one `add_data` dictionary entry: the per-item
validations of `Drillhole.add_data` followed by the appropriate
`validate_*` call and the creation of the new data child. -/
def addItem (dsv : ℚ → V) (s : DH V) (a : DataAttr) :
    Except (IngestError × DH V) (DH V) :=
  match a.values with
  | none => .error (.missingValues, s)
  | some vals =>
    let tol? : Except (IngestError × DH V) ℚ :=
      match a.collocation with
      | some c => if 0 < c then .ok c else .error (.invalidTolerance, s)
      | none => .ok (1 / 100)  -- default_collocation_distance
    match tol? with
    | .error e => .error e
    | .ok tol =>
      match a.depth with
      | some dep =>
        (validate_log_data dsv s dep vals tol).map fun sv =>
          { sv.1 with vdata := sv.1.vdata ++ [sv.2] }
      | none =>
        match a.fromTo with
        | some ft =>
          (validate_interval_data dsv s ft vals tol).map fun sv =>
            { sv.1 with cdata := sv.1.cdata ++ [sv.2] }
        | none =>
          if a.association = some "OBJECT" then
            .ok { s with odata := s.odata ++ [vals] }
          else .error (.missingAssociation, s)

/-- Sequential processing of the `add_data` dictionary; an exception
aborts the loop, carrying the state mutated so far. -/
def addItems (dsv : ℚ → V) (s : DH V) :
    List DataAttr → Except (IngestError × DH V) (DH V)
  | [] => .ok s
  | a :: rest =>
    match addItem dsv s a with
    | .error e => .error e
    | .ok s' => addItems dsv s' rest

/-- Depth keys are non-decreasing: `np.all(np.diff(depths) >= 0)`. -/
def isNonDecreasing (l : List ℚ) : Bool :=
  (l.zip l.tail).all fun pr => decide (pr.1 ≤ pr.2)

/-- Pad a values array with NaN up to the expected length.  Modelled from
the spec: `Data.check_vector_length` is not part of the sources given
(only its call sites are); per §4.4 every pre-existing data field "gains
padding (undefined/missing marker) for these new vertices". -/
def padTo (n : Nat) (l : List (Option ℚ)) : List (Option ℚ) :=
  if l.length < n then l ++ List.replicate (n - l.length) none else l

/-- Re-index an array by a permutation given as an index list
(`arr[sort_ind]`). -/
def permuteIdx [Inhabited α] (p : List Nat) (l : List α) : List α :=
  p.map fun k => l.getD k default

/-- Embedding of `Drillhole.sort_depths`: when the `DEPTH` values are not
non-decreasing, re-index every `VERTEX` child (padded to the vertex count
first) and the vertices by the sorting permutation, and remap the cell
indices through `np.argsort(sort_ind)`, the inverse permutation.  A
`DEPTH` child that exists with no values set would be padded to an
all-NaN vector by the source (and is unreachable here); it is treated as
the absent-`DEPTH` no-op. -/
def sort_depths [Inhabited V] (s : DH V) : DH V :=
  match s.depth with
  | none => s
  | some d =>
    if isNonDecreasing d then s
    else
      let p := argsort d
      let q := argsort p
      { s with
        depth := some (permuteIdx p d)
        vdata := s.vdata.map fun a => permuteIdx p (padTo s.vertices.length a)
        vertices := if s.vertices.isEmpty then s.vertices
          else permuteIdx p s.vertices
        cells := s.cells.map fun c => (q.getD c.1 0, q.getD c.2 0) }

/-- Embedding of `Drillhole.add_data`: process all dictionary entries,
then run the depth-sort pass (the sort pass and the final commit do not
run when an entry raised). -/
def add_data (dsv : ℚ → V) [Inhabited V] (s : DH V) (items : List DataAttr) :
    Except (IngestError × DH V) (DH V) :=
  (addItems dsv s items).map sort_depths

/-- One log ingestion through `add_data` as a total step function: on an
exception the drillhole is left in the carried state. -/
def logStep (s : DH ℚ) (b : List ℚ × List ℚ × ℚ) : DH ℚ :=
  match add_data id s [logItem b.1 b.2.1 b.2.2] with
  | .ok s' => s'
  | .error e => e.2

/-! Basic lemmas about the numpy primitives. -/

lemma wrapIdx_lt {n : Nat} {i : Int} (hlo : -(n : Int) ≤ i) (hhi : i < n) :
    wrapIdx n i < n := by
  unfold wrapIdx; split <;> omega

lemma npGet?_bounds {l : List α} {i : Int} {a : α} (h : npGet? l i = some a) :
    -(l.length : Int) ≤ i ∧ i < l.length := by
  unfold npGet? at h
  by_cases h0 : 0 ≤ i
  · rw [if_pos h0] at h
    have hlt : i.toNat < l.length := by
      by_contra hge
      rw [List.get?_eq_none.mpr (by omega)] at h
      exact Option.noConfusion h
    omega
  · rw [if_neg h0] at h
    by_cases h1 : 0 ≤ i + l.length
    · omega
    · rw [if_neg h1] at h
      exact Option.noConfusion h

lemma npGet?_eq_getElem? {l : List α} {i : Int}
    (hlo : -(l.length : Int) ≤ i) (hhi : i < l.length) :
    npGet? l i = l[wrapIdx l.length i]? := by
  unfold npGet? wrapIdx
  by_cases h0 : 0 ≤ i
  · rw [if_pos h0, if_pos h0, List.get?_eq_getElem?]
  · have h1 : 0 ≤ i + l.length := by omega
    rw [if_neg h0, if_pos h1, if_neg h0, List.get?_eq_getElem?]

lemma npGet?_eq_some_of {l : List α} {i : Int} (hlo : -(l.length : Int) ≤ i)
    (hhi : i < l.length) (hw : wrapIdx l.length i < l.length) :
    npGet? l i = some l[wrapIdx l.length i] := by
  rw [npGet?_eq_getElem? hlo hhi, List.getElem?_eq_getElem hw]

/-! Lemmas about `argsort`. -/

lemma argsort_perm_range [LinearOrder α] [Inhabited α] (l : List α) :
    List.Perm (argsort l) (List.range l.length) :=
  List.perm_insertionSort _ _

lemma length_argsort [LinearOrder α] [Inhabited α] (l : List α) :
    (argsort l).length = l.length := by
  simpa using (argsort_perm_range l).length_eq

lemma lt_of_mem_argsort [LinearOrder α] [Inhabited α] {l : List α} {k : Nat}
    (h : k ∈ argsort l) : k < l.length :=
  List.mem_range.mp ((argsort_perm_range l).mem_iff.mp h)

lemma map_getD_range (l : List α) (d : α) :
    (List.range l.length).map (fun k => l.getD k d) = l := by
  apply List.ext_getElem (by simp)
  intro i h1 h2
  rw [List.getElem_map, List.getElem_range, List.getD_eq_getElem l d h2]

lemma argsortVals_perm [LinearOrder α] [Inhabited α] (l : List α) :
    List.Perm ((argsort l).map fun k => l.getD k default) l := by
  have h := (argsort_perm_range l).map (fun k => l.getD k default)
  rwa [map_getD_range l default] at h

lemma argsort_pairwise [LinearOrder α] [Inhabited α] (l : List α) :
    (argsort l).Pairwise (fun i j => l.getD i default ≤ l.getD j default) := by
  haveI : IsTotal Nat (fun i j => l.getD i default ≤ l.getD j default) :=
    ⟨fun a b => le_total _ _⟩
  haveI : IsTrans Nat (fun i j => l.getD i default ≤ l.getD j default) :=
    ⟨fun a b c hab hbc => le_trans hab hbc⟩
  exact List.sorted_insertionSort _ (List.range l.length)

lemma argsortVals_sorted [LinearOrder α] [Inhabited α] (l : List α) :
    ((argsort l).map fun k => l.getD k default).Sorted (· ≤ ·) :=
  (argsort_pairwise l).map _ (fun _ _ h => h)

/-! Positions before the right-insertion point of `b` in a sorted list
hold values `≤ b`; positions from it on hold values `> b`. -/

lemma sorted_getElem_le_of_lt_countP [LinearOrder α] {s : List α}
    (hs : s.Sorted (· ≤ ·)) {b : α} {k : Nat}
    (hk : k < s.countP fun a => decide (a ≤ b)) (hlen : k < s.length) :
    s[k] ≤ b := by
  induction s generalizing k with
  | nil => simp at hlen
  | cons x t ih =>
    have hxt : ∀ y ∈ t, x ≤ y := List.rel_of_sorted_cons hs
    have hxb : x ≤ b := by
      by_contra hnb
      have h0 : t.countP (fun a => decide (a ≤ b)) = 0 := by
        rw [List.countP_eq_zero]
        intro a ha
        simp only [decide_eq_true_eq]
        intro hab
        exact hnb (le_trans (hxt a ha) hab)
      rw [List.countP_cons, h0, if_neg (by simpa using hnb)] at hk
      omega
    match k with
    | 0 => simpa using hxb
    | Nat.succ k' =>
      rw [List.countP_cons, if_pos (by simpa using hxb)] at hk
      have hl' : k' < t.length := by simpa using hlen
      have hk' : k' < t.countP fun a => decide (a ≤ b) := by omega
      have := ih hs.of_cons hk' hl'
      simpa using this

lemma lt_of_countP_le_getElem [LinearOrder α] {s : List α}
    (hs : s.Sorted (· ≤ ·)) {b : α} {k : Nat}
    (hk : s.countP (fun a => decide (a ≤ b)) ≤ k) (hlen : k < s.length) :
    b < s[k] := by
  induction s generalizing k with
  | nil => simp at hlen
  | cons x t ih =>
    by_cases hxb : x ≤ b
    · rw [List.countP_cons, if_pos (by simpa using hxb)] at hk
      match k with
      | 0 => omega
      | Nat.succ k' =>
        have hl' : k' < t.length := by simpa using hlen
        have hk' : t.countP (fun a => decide (a ≤ b)) ≤ k' := by omega
        have := ih hs.of_cons hk' hl'
        simpa using this
    · match k with
      | 0 => simpa using lt_of_not_le hxb
      | Nat.succ k' =>
        have hxt : ∀ y ∈ t, x ≤ y := List.rel_of_sorted_cons hs
        have h0 : t.countP (fun a => decide (a ≤ b)) = 0 := by
          rw [List.countP_eq_zero]
          intro a ha
          simp only [decide_eq_true_eq]
          intro hab
          exact hxb (le_trans (hxt a ha) hab)
        have hl' : k' < t.length := by simpa using hlen
        have hk' : t.countP (fun a => decide (a ≤ b)) ≤ k' := by omega
        have := ih hs.of_cons hk' hl'
        simpa using this

/-! Lemmas about `npDelete` and `mergeApply`. -/

lemma npDelete_eq_map_filter [Inhabited α] (l : List α) (cols : List Nat) :
    npDelete l cols =
      ((List.range l.length).filter fun k => decide (k ∉ cols)).map
        fun k => l.getD k default := by
  unfold npDelete
  have main : ∀ ks : List Nat, (∀ k ∈ ks, k < l.length) →
      (ks.filterMap fun k => if k ∈ cols then none else l.get? k) =
        (ks.filter fun k => decide (k ∉ cols)).map fun k => l.getD k default := by
    intro ks hks
    induction ks with
    | nil => rfl
    | cons k ks ih =>
      have hk : k < l.length := hks k (by simp)
      have htail := ih fun x hx => hks x (by simp [hx])
      by_cases hmem : k ∈ cols
      · simp only [List.filterMap_cons, List.filter_cons, if_pos hmem, hmem]
        simpa using htail
      · rw [List.filterMap_cons, if_neg hmem, List.get?_eq_get hk,
          List.filter_cons, if_pos (by simpa using hmem), List.map_cons]
        show l.get ⟨k, hk⟩ :: _ = _ :: _
        rw [htail]
        congr 1
        rw [List.getD_eq_getElem l default hk, List.get_eq_getElem]
  exact main (List.range l.length) fun k hk => List.mem_range.mp hk

lemma length_npDelete [Inhabited α] (l : List α) (cols : List Nat) :
    (npDelete l cols).length =
      ((List.range l.length).filter fun k => decide (k ∉ cols)).length := by
  rw [npDelete_eq_map_filter, List.length_map]

lemma length_npDelete_congr [Inhabited α] [Inhabited β] {l : List α}
    {l' : List β} (h : l.length = l'.length) (cols : List Nat) :
    (npDelete l cols).length = (npDelete l' cols).length := by
  rw [length_npDelete, length_npDelete, h]

lemma npDelete_eq_nil [Inhabited α] {l : List α} {cols : List Nat}
    (h : ∀ k < l.length, k ∈ cols) : npDelete l cols = [] := by
  rw [npDelete_eq_map_filter]
  have : (List.range l.length).filter (fun k => decide (k ∉ cols)) = [] := by
    rw [List.filter_eq_nil_iff]
    intro k hk
    simpa using h k (List.mem_range.mp hk)
  rw [this, List.map_nil]

lemma getD_mem_npDelete [Inhabited α] {l : List α} {cols : List Nat} {j : Nat}
    (hj : j < l.length) (hnot : j ∉ cols) :
    l.getD j default ∈ npDelete l cols := by
  rw [npDelete_eq_map_filter]
  exact List.mem_map.mpr ⟨j, List.mem_filter.mpr
    ⟨List.mem_range.mpr hj, by simpa using hnot⟩, rfl⟩

lemma length_foldl_set [Inhabited α] (m : List (Nat × Nat)) (h0 : List α)
    (t : List α) :
    (m.foldl (fun h ij => h.set ij.1 (t.getD ij.2 default)) h0).length
      = h0.length := by
  induction m generalizing h0 with
  | nil => rfl
  | cons ij m ih => rw [List.foldl_cons, ih, List.length_set]

lemma length_mergeApply_nil [Inhabited α] (head tail : List α) (b : Bool) :
    mergeApply head tail [] b = head ++ tail := by
  unfold mergeApply; rfl

lemma mergeApply_cons [Inhabited α] (head tail : List α) (ij : Nat × Nat)
    (m : List (Nat × Nat)) :
    mergeApply head tail (ij :: m) false =
      head ++ npDelete tail ((ij :: m).map Prod.snd) := by
  unfold mergeApply
  rw [if_neg (by simp), if_neg (by simp)]

lemma length_mergeApply [Inhabited α] (head tail : List α)
    (m : List (Nat × Nat)) (b : Bool) :
    (mergeApply head tail m b).length =
      head.length + (if m.length = 0 then tail.length
        else (npDelete tail (m.map Prod.snd)).length) := by
  unfold mergeApply
  by_cases hm : m.length = 0
  · rw [if_pos hm, if_pos hm, List.length_append]
  · rw [if_neg hm, if_neg hm, List.length_append]
    congr 1
    cases b with
    | true => rw [if_pos rfl, length_foldl_set]
    | false => rw [if_neg (by simp)]

/-! Option-monad plumbing for `match_values`. -/

lemma mapM_eq_some_of_forall {α β : Type} (f : α → Option β) (g : α → β)
    (xs : List α) (h : ∀ x ∈ xs, f x = some (g x)) :
    xs.mapM f = some (xs.map g) := by
  induction xs with
  | nil => rfl
  | cons x xs ih =>
    rw [List.mapM_cons, h x (by simp), ih fun y hy => h y (by simp [hy])]
    rfl

lemma mapM_eq_none_of_mem {α β : Type} {f : α → Option β} {xs : List α}
    {x : α} (hx : x ∈ xs) (hf : f x = none) : xs.mapM f = none := by
  induction xs with
  | nil => simp at hx
  | cons y ys ih =>
    rw [List.mapM_cons]
    rcases List.mem_cons.mp hx with h | h
    · subst h; rw [hf]; rfl
    · cases hy : f y with
      | none => rfl
      | some b => rw [ih h]; rfl

lemma mem_of_mapM_some {α β : Type} {f : α → Option β} {xs : List α}
    {ys : List β} (h : xs.mapM f = some ys) {y : β} (hy : y ∈ ys) :
    ∃ x ∈ xs, f x = some y := by
  induction xs generalizing ys with
  | nil =>
    simp only [List.mapM_nil] at h
    cases h; simp at hy
  | cons x xs ih =>
    rw [List.mapM_cons] at h
    cases hx : f x with
    | none => rw [hx] at h; exact Option.noConfusion h
    | some b =>
      rw [hx] at h
      cases hxs : xs.mapM f with
      | none => rw [hxs] at h; exact Option.noConfusion h
      | some bs =>
        rw [hxs] at h
        have : b :: bs = ys := by
          simpa using h
        subst this
        rcases List.mem_cons.mp hy with h' | h'
        · exact ⟨x, by simp, by rw [hx, h']⟩
        · obtain ⟨x', hx', hfx'⟩ := ih hxs h'
          exact ⟨x', by simp [hx'], hfx'⟩

lemma mapM_mem_some {α β : Type} {f : α → Option β} {xs : List α}
    {ys : List β} (h : xs.mapM f = some ys) {x : α} (hx : x ∈ xs) :
    ∃ y ∈ ys, f x = some y := by
  induction xs generalizing ys with
  | nil => simp at hx
  | cons a xs ih =>
    rw [List.mapM_cons] at h
    cases ha : f a with
    | none => rw [ha] at h; exact Option.noConfusion h
    | some b =>
      rw [ha] at h
      cases hxs : xs.mapM f with
      | none => rw [hxs] at h; exact Option.noConfusion h
      | some bs =>
        rw [hxs] at h
        have hys : b :: bs = ys := by simpa using h
        subst hys
        rcases List.mem_cons.mp hx with h' | h'
        · exact ⟨b, by simp, by rw [h', ha]⟩
        · obtain ⟨y, hy, hfy⟩ := ih hxs h'
          exact ⟨y, by simp [hy], hfy⟩

/-! Structural lemmas about `candPair`, `matchRow` and `match_values`. -/

lemma candPair_eq_some {p : List Nat} {sA : List ℚ} {b ε : ℚ} {j : Nat}
    {pos : Int} (hlen : sA.length = p.length)
    (hlo : -(sA.length : Int) ≤ pos) (hhi : pos < sA.length) :
    candPair p sA b ε j pos =
      some (if |sA.getD (wrapIdx sA.length pos) 0 - b| < ε
        then [(p.getD (wrapIdx sA.length pos) 0, j)] else []) := by
  have hw : wrapIdx sA.length pos < sA.length := wrapIdx_lt hlo hhi
  have hlo' : -(p.length : Int) ≤ pos := by rw [← hlen]; exact hlo
  have hhi' : pos < p.length := by rw [← hlen]; exact hhi
  have hwp : wrapIdx p.length pos < p.length := wrapIdx_lt hlo' hhi'
  have hww : wrapIdx p.length pos = wrapIdx sA.length pos := by rw [hlen]
  have h1 : npGet? sA pos = some (sA.getD (wrapIdx sA.length pos) 0) := by
    rw [npGet?_eq_some_of hlo hhi hw, List.getD_eq_getElem sA 0 hw]
  have h2 : npGet? p pos = some (p.getD (wrapIdx sA.length pos) 0) := by
    rw [npGet?_eq_some_of hlo' hhi' hwp, ← hww, List.getD_eq_getElem p 0 hwp]
  have hdef : candPair p sA b ε j pos =
      (npGet? sA pos).bind fun a => (npGet? p pos).bind fun i =>
        some (if |a - b| < ε then [(i, j)] else []) := rfl
  rw [hdef, h1, h2]
  rfl

lemma candPair_some_mem {p : List Nat} {sA : List ℚ} {b ε : ℚ} {j : Nat}
    {pos : Int} {w : List (Nat × Nat)} (h : candPair p sA b ε j pos = some w)
    (hlen : sA.length = p.length) {pr : Nat × Nat} (hpr : pr ∈ w) :
    -(sA.length : Int) ≤ pos ∧ pos < sA.length ∧
      pr = (p.getD (wrapIdx sA.length pos) 0, j) ∧
      |sA.getD (wrapIdx sA.length pos) 0 - b| < ε := by
  have hdef : candPair p sA b ε j pos =
      (npGet? sA pos).bind fun a => (npGet? p pos).bind fun i =>
        some (if |a - b| < ε then [(i, j)] else []) := rfl
  rw [hdef] at h
  rcases Option.bind_eq_some.mp h with ⟨a, ha, h⟩
  rcases Option.bind_eq_some.mp h with ⟨i, hi, h⟩
  have hweq : (if |a - b| < ε then [(i, j)] else []) = w :=
    Option.some_inj.mp h
  obtain ⟨hlo, hhi⟩ := npGet?_bounds ha
  have hwlt : wrapIdx sA.length pos < sA.length := wrapIdx_lt hlo hhi
  have hlo' : -(p.length : Int) ≤ pos := by rw [← hlen]; exact hlo
  have hhi' : pos < p.length := by rw [← hlen]; exact hhi
  have hwp : wrapIdx p.length pos < p.length := wrapIdx_lt hlo' hhi'
  have hww : wrapIdx p.length pos = wrapIdx sA.length pos := by rw [hlen]
  have ha' : a = sA.getD (wrapIdx sA.length pos) 0 := by
    have h1 : npGet? sA pos = some (sA.getD (wrapIdx sA.length pos) 0) := by
      rw [npGet?_eq_some_of hlo hhi hwlt, List.getD_eq_getElem sA 0 hwlt]
    rw [ha] at h1
    exact Option.some_inj.mp h1
  have hi' : i = p.getD (wrapIdx sA.length pos) 0 := by
    have h2 : npGet? p pos = some (p.getD (wrapIdx sA.length pos) 0) := by
      rw [npGet?_eq_some_of hlo' hhi' hwp, ← hww, List.getD_eq_getElem p 0 hwp]
    rw [hi] at h2
    exact Option.some_inj.mp h2
  rw [← hweq] at hpr
  by_cases hab : |a - b| < ε
  · rw [if_pos hab] at hpr
    have hpr' : pr = (i, j) := by simpa using hpr
    exact ⟨hlo, hhi, by rw [hpr', hi'], by rw [← ha']; exact hab⟩
  · rw [if_neg hab] at hpr
    simp at hpr

lemma matchRow_eq_of_ne_nil {A B : List ℚ} {ε : ℚ} (j : Nat)
    (hA : A ≠ []) :
    matchRow A B ε j =
      some ((if |((argsort A).map fun k => A.getD k 0).getD
            (wrapIdx A.length (rIdx A B j)) 0 - B.getD j 0| < ε
          then [((argsort A).getD (wrapIdx A.length (rIdx A B j)) 0, j)]
          else []) ++
        (if |((argsort A).map fun k => A.getD k 0).getD
            (wrapIdx A.length (rIdx A B j - 1)) 0 - B.getD j 0| < ε
          then [((argsort A).getD (wrapIdx A.length (rIdx A B j - 1)) 0, j)]
          else [])) := by
  have hM : 0 < A.length := List.length_pos.mpr hA
  have hsl : ((argsort A).map fun k => A.getD k 0).length = A.length := by
    rw [List.length_map, length_argsort]
  have hr0 : 0 ≤ rIdx A B j := by
    unfold rIdx; omega
  have hrM : rIdx A B j < A.length := by
    unfold rIdx; omega
  have h0 := @candPair_eq_some (argsort A)
    ((argsort A).map fun k => A.getD k 0) (B.getD j 0) ε j (rIdx A B j)
    (by rw [List.length_map]) (by rw [hsl]; omega) (by rw [hsl]; exact hrM)
  have h1 := @candPair_eq_some (argsort A)
    ((argsort A).map fun k => A.getD k 0) (B.getD j 0) ε j (rIdx A B j - 1)
    (by rw [List.length_map]) (by rw [hsl]; omega)
    (by rw [hsl]; omega)
  rw [hsl] at h0 h1
  have hdef : matchRow A B ε j =
      (candPair (argsort A) ((argsort A).map fun k => A.getD k 0)
        (B.getD j 0) ε j (rIdx A B j)).bind fun c0 =>
      (candPair (argsort A) ((argsort A).map fun k => A.getD k 0)
        (B.getD j 0) ε j (rIdx A B j - 1)).bind fun c1 =>
      some (c0 ++ c1) := rfl
  rw [hdef, h0, h1]
  rfl

lemma matchRow_isSome {A B : List ℚ} {ε : ℚ} (j : Nat) (hA : A ≠ []) :
    ∃ w, matchRow A B ε j = some w :=
  ⟨_, matchRow_eq_of_ne_nil j hA⟩

lemma matchRow_mem_spec {A B : List ℚ} {ε : ℚ} {j : Nat}
    {w : List (Nat × Nat)} (h : matchRow A B ε j = some w) {pr : Nat × Nat}
    (hpr : pr ∈ w) :
    pr.2 = j ∧ pr.1 < A.length ∧
      |A.getD pr.1 0 - B.getD j 0| < ε ∧
      ∃ k, k < A.length ∧ pr.1 = (argsort A).getD k 0 ∧
        (k = wrapIdx A.length (rIdx A B j) ∨
          k = wrapIdx A.length (rIdx A B j - 1)) := by
  have hsl : ((argsort A).map fun k => A.getD k 0).length = A.length := by
    rw [List.length_map, length_argsort]
  have hdef : matchRow A B ε j =
      (candPair (argsort A) ((argsort A).map fun k => A.getD k 0)
        (B.getD j 0) ε j (rIdx A B j)).bind fun c0 =>
      (candPair (argsort A) ((argsort A).map fun k => A.getD k 0)
        (B.getD j 0) ε j (rIdx A B j - 1)).bind fun c1 =>
      some (c0 ++ c1) := rfl
  rw [hdef] at h
  rcases Option.bind_eq_some.mp h with ⟨c0, hc0, h⟩
  rcases Option.bind_eq_some.mp h with ⟨c1, hc1, h⟩
  have hw : c0 ++ c1 = w := Option.some_inj.mp h
  rw [← hw] at hpr
  have main : ∀ pos : Int,
      (pos = rIdx A B j ∨ pos = rIdx A B j - 1) →
      ∀ {c : List (Nat × Nat)},
      candPair (argsort A) ((argsort A).map fun k => A.getD k 0)
        (B.getD j 0) ε j pos = some c → pr ∈ c →
      pr.2 = j ∧ pr.1 < A.length ∧
        |A.getD pr.1 0 - B.getD j 0| < ε ∧
        ∃ k, k < A.length ∧ pr.1 = (argsort A).getD k 0 ∧
          (k = wrapIdx A.length (rIdx A B j) ∨
            k = wrapIdx A.length (rIdx A B j - 1)) := by
    intro pos hpos c hc hmem
    obtain ⟨hlo, hhi, hpr', hab⟩ :=
      candPair_some_mem hc (by rw [List.length_map, length_argsort]) hmem
    rw [hsl] at hpr' hab
    have hwlt : wrapIdx A.length pos < A.length := by
      have h' := wrapIdx_lt hlo hhi
      rwa [hsl] at h'
    have hklt : wrapIdx A.length pos < (argsort A).length := by
      rw [length_argsort]; exact hwlt
    have hp1 : pr.1 = (argsort A).getD (wrapIdx A.length pos) 0 := by
      rw [hpr']
    have hmem' : (argsort A).getD (wrapIdx A.length pos) 0 ∈ argsort A := by
      rw [List.getD_eq_getElem _ 0 hklt]; exact List.getElem_mem hklt
    have hp1lt : pr.1 < A.length := by
      rw [hp1]; exact lt_of_mem_argsort hmem'
    have hval : ((argsort A).map fun i => A.getD i 0).getD
        (wrapIdx A.length pos) 0 = A.getD pr.1 0 := by
      have hkm : wrapIdx A.length pos <
          ((argsort A).map fun i => A.getD i 0).length := by
        rw [hsl]; exact hwlt
      rw [List.getD_eq_getElem _ 0 hkm, List.getElem_map, hp1,
        List.getD_eq_getElem _ 0 hklt]
    have habs : |A.getD pr.1 0 - B.getD j 0| < ε := by
      rw [← hval]; exact hab
    have hj : pr.2 = j := by rw [hpr']
    refine ⟨hj, hp1lt, habs, wrapIdx A.length pos, hwlt, hp1, ?_⟩
    rcases hpos with h' | h' <;> [left; right] <;> rw [h']
  rcases List.mem_append.mp hpr with hmem | hmem
  · exact main _ (Or.inl rfl) hc0 hmem
  · exact main _ (Or.inr rfl) hc1 hmem

lemma match_values_inv {A B : List ℚ} {ε : ℚ} {L : List (Nat × Nat)}
    (h : match_values A B ε = some L) :
    ∃ rows, (List.range B.length).mapM (matchRow A B ε) = some rows ∧
      L = rows.flatten := by
  have hdef : match_values A B ε =
      ((List.range B.length).mapM (matchRow A B ε)).bind fun rows =>
        some rows.flatten := rfl
  rw [hdef] at h
  rcases Option.bind_eq_some.mp h with ⟨rows, hrows, h⟩
  exact ⟨rows, hrows, (Option.some_inj.mp h).symm⟩

lemma match_values_mem_spec {A B : List ℚ} {ε : ℚ} {L : List (Nat × Nat)}
    (h : match_values A B ε = some L) {pr : Nat × Nat} (hpr : pr ∈ L) :
    pr.1 < A.length ∧ pr.2 < B.length ∧
      |A.getD pr.1 0 - B.getD pr.2 0| < ε ∧
      ∃ k, k < A.length ∧ pr.1 = (argsort A).getD k 0 ∧
        (k = wrapIdx A.length (rIdx A B pr.2) ∨
          k = wrapIdx A.length (rIdx A B pr.2 - 1)) := by
  obtain ⟨rows, hrows, hL⟩ := match_values_inv h
  rw [hL] at hpr
  obtain ⟨row, hrow, hmem⟩ := List.mem_flatten.mp hpr
  obtain ⟨j, hj, hrow'⟩ := mem_of_mapM_some hrows hrow
  have hjN : j < B.length := List.mem_range.mp hj
  obtain ⟨hj', hp1, habs, k, hk, hkeq, hkor⟩ := matchRow_mem_spec hrow' hmem
  rw [← hj'] at habs hkor
  exact ⟨hp1, by rw [hj']; exact hjN, habs, k, hk, hkeq, hkor⟩

lemma mapM_isSome_of_forall {α β : Type} {f : α → Option β} {xs : List α}
    (h : ∀ x ∈ xs, ∃ y, f x = some y) : ∃ ys, xs.mapM f = some ys := by
  induction xs with
  | nil => exact ⟨[], rfl⟩
  | cons x xs ih =>
    obtain ⟨y, hy⟩ := h x (by simp)
    obtain ⟨ys, hys⟩ := ih fun z hz => h z (by simp [hz])
    exact ⟨y :: ys, by rw [List.mapM_cons, hy, hys]; rfl⟩

lemma match_values_eq_some_of_ne_nil {A B : List ℚ} {ε : ℚ} (hA : A ≠ []) :
    ∃ L, match_values A B ε = some L := by
  obtain ⟨rows, hrows⟩ := @mapM_isSome_of_forall _ _
    (matchRow A B ε) (List.range B.length)
    fun j _ => matchRow_isSome j hA
  refine ⟨rows.flatten, ?_⟩
  have hdef : match_values A B ε =
      ((List.range B.length).mapM (matchRow A B ε)).bind fun rs =>
        some rs.flatten := rfl
  rw [hdef, hrows]
  rfl

lemma match_values_nil_left {B : List ℚ} {ε : ℚ} (hB : B ≠ []) :
    match_values [] B ε = none := by
  have h0 : matchRow [] B ε 0 = none := rfl
  have hmem : (0 : Nat) ∈ List.range B.length :=
    List.mem_range.mpr (List.length_pos.mpr hB)
  have hdef : match_values [] B ε =
      ((List.range B.length).mapM (matchRow [] B ε)).bind fun rs =>
        some rs.flatten := rfl
  rw [hdef, mapM_eq_none_of_mem hmem h0]
  rfl

/-! The hit lemma: a query value within `ε` of some entry of a nonempty
reference array always produces at least one candidate match, because the
entry before the right-insertion point (resp. at it) is at least as close
as the witness. -/

lemma matchRow_ne_nil_of_close {A B : List ℚ} {ε : ℚ} {j : Nat}
    (hA : A ≠ []) (hv : ∃ v ∈ A, |v - B.getD j 0| < ε) :
    ∃ w, matchRow A B ε j = some w ∧ w ≠ [] := by
  have hM : 0 < A.length := List.length_pos.mpr hA
  have hsl : ((argsort A).map fun k => A.getD k 0).length = A.length := by
    rw [List.length_map, length_argsort]
  have hsorted : ((argsort A).map fun k => A.getD k 0).Sorted (· ≤ ·) :=
    argsortVals_sorted A
  have hperm : List.Perm ((argsort A).map fun k => A.getD k 0) A :=
    argsortVals_perm A
  obtain ⟨v, hvA, hvb⟩ := hv
  have hvsA : v ∈ (argsort A).map fun k => A.getD k 0 :=
    hperm.mem_iff.mpr hvA
  obtain ⟨kv, hkv, hkveq⟩ := List.mem_iff_getElem.mp hvsA
  have hr : rIdx A B j =
      min ((searchsortedRight ((argsort A).map fun k => A.getD k 0)
        (B.getD j 0) : Nat) : Int) ((A.length : Int) - 1) := rfl
  set b := B.getD j 0 with hb
  set c := searchsortedRight ((argsort A).map fun k => A.getD k 0) b with hc
  have hcount : List.countP (fun a => decide (a ≤ b))
      ((argsort A).map fun k => A.getD k 0) = c := rfl
  have hcle : c ≤ A.length := by
    rw [hc]; unfold searchsortedRight
    calc List.countP _ _ ≤ ((argsort A).map fun k => A.getD k 0).length :=
          List.countP_le_length _
      _ = A.length := hsl
  refine ⟨_, matchRow_eq_of_ne_nil j hA, ?_⟩
  rcases le_or_lt v b with hvb' | hvb'
  · -- v ≤ b: the entry just before the insertion point is within ε
    have hc1 : 0 < c := by
      rw [hc]; unfold searchsortedRight
      exact List.countP_pos.mpr ⟨v, hvsA, by simpa using hvb'⟩
    have hkvc : kv < c := by
      by_contra hge
      have hlt := @lt_of_countP_le_getElem _ _ _ hsorted
        b kv (by rw [hcount]; omega) hkv
      rw [hkveq] at hlt
      exact absurd hvb' (not_le.mpr hlt)
    have hvle : ∀ k, kv ≤ k → (hk : k < ((argsort A).map
        fun i => A.getD i 0).length) →
        v ≤ ((argsort A).map fun i => A.getD i 0)[k] := by
      intro k hkk hk
      rcases eq_or_lt_of_le hkk with heq | hlt
      · subst heq; rw [hkveq]
      · rw [← hkveq]
        exact List.pairwise_iff_getElem.mp hsorted kv k hkv hk hlt
    have hclose : ∀ hcm : c - 1 < ((argsort A).map
        fun i => A.getD i 0).length,
        |((argsort A).map fun i => A.getD i 0)[c - 1] - b| < ε := by
      intro hcm
      have hle : ((argsort A).map fun i => A.getD i 0)[c - 1] ≤ b :=
        sorted_getElem_le_of_lt_countP hsorted (by rw [hcount]; omega) hcm
      have hge : v ≤ ((argsort A).map fun i => A.getD i 0)[c - 1] :=
        hvle (c - 1) (by omega) hcm
      rw [abs_of_nonpos (sub_nonpos.mpr hle)]
      rw [abs_of_nonpos (sub_nonpos.mpr hvb')] at hvb
      linarith
    rcases lt_or_eq_of_le hcle with hcM | hcM
    · -- c < len A: candidate at position r - 1 = c - 1 hits
      have hrc : rIdx A B j = (c : Int) := by
        rw [hr]; exact min_eq_left (by omega)
      have hw1 : wrapIdx A.length (rIdx A B j - 1) = c - 1 := by
        rw [hrc]; unfold wrapIdx; rw [if_pos (by omega)]; omega
      have hcm : c - 1 < ((argsort A).map fun i => A.getD i 0).length := by
        rw [hsl]; omega
      have hc1' := hclose hcm
      rw [hw1, List.getD_eq_getElem _ 0 hcm]
      rw [if_pos hc1']
      simp [List.append_eq_nil]
    · -- c = len A: candidate at the clamped position r = len A - 1 hits
      have hrc : rIdx A B j = (A.length : Int) - 1 := by
        rw [hr]; exact min_eq_right (by omega)
      have hw0 : wrapIdx A.length (rIdx A B j) = c - 1 := by
        rw [hrc]; unfold wrapIdx; rw [if_pos (by omega)]; omega
      have hcm : c - 1 < ((argsort A).map fun i => A.getD i 0).length := by
        rw [hsl]; omega
      have hc0' := hclose hcm
      rw [hw0, List.getD_eq_getElem _ 0 hcm]
      rw [if_pos hc0']
      simp [List.append_eq_nil]
  · -- b < v: the entry at the insertion point is within ε
    have hkvge : c ≤ kv := by
      by_contra hlt
      have hle := @sorted_getElem_le_of_lt_countP _ _ _ hsorted
        b kv (by rw [hcount]; omega) hkv
      rw [hkveq] at hle
      exact absurd hle (not_le.mpr hvb')
    have hcM : c < A.length := by
      have : kv < ((argsort A).map fun i => A.getD i 0).length := hkv
      rw [hsl] at this; omega
    have hrc : rIdx A B j = (c : Int) := by
      rw [hr]; exact min_eq_left (by omega)
    have hw0 : wrapIdx A.length (rIdx A B j) = c := by
      rw [hrc]; unfold wrapIdx; rw [if_pos (by omega)]; omega
    have hcm : c < ((argsort A).map fun i => A.getD i 0).length := by
      rw [hsl]; omega
    have hgt : b < ((argsort A).map fun i => A.getD i 0)[c] :=
      lt_of_countP_le_getElem hsorted (by rw [hcount]) hcm
    have hlev : ((argsort A).map fun i => A.getD i 0)[c] ≤ v := by
      rcases eq_or_lt_of_le hkvge with heq | hlt
      · have e1 : ((argsort A).map fun i => A.getD i 0)[c] =
            ((argsort A).map fun i => A.getD i 0).getD c 0 :=
          (List.getD_eq_getElem _ 0 hcm).symm
        rw [e1, heq, List.getD_eq_getElem _ 0 hkv, hkveq]
      · rw [← hkveq]
        exact List.pairwise_iff_getElem.mp hsorted c kv hcm hkv hlt
    have hclose : |((argsort A).map fun i => A.getD i 0)[c] - b| < ε := by
      rw [abs_of_nonneg (sub_nonneg.mpr (le_of_lt hgt))]
      rw [abs_of_nonneg (sub_nonneg.mpr (le_of_lt hvb'))] at hvb
      linarith
    rw [hw0, List.getD_eq_getElem _ 0 hcm]
    rw [if_pos hclose]
    simp [List.append_eq_nil]

/-- When every query value lies within `ε` of some entry of the nonempty
reference array, every query index appears in the returned mapping. -/
lemma match_values_covers {A B : List ℚ} {ε : ℚ} (hA : A ≠ [])
    (hcov : ∀ j < B.length, ∃ v ∈ A, |v - B.getD j 0| < ε) :
    ∃ L, match_values A B ε = some L ∧
      (∀ j < B.length, j ∈ L.map Prod.snd) ∧ (B ≠ [] → L ≠ []) := by
  obtain ⟨L, hL⟩ := @match_values_eq_some_of_ne_nil A B ε hA
  have hmem : ∀ j < B.length, j ∈ L.map Prod.snd := by
    intro j hj
    obtain ⟨rows, hrows, hflat⟩ := match_values_inv hL
    obtain ⟨w, hw, hwne⟩ := matchRow_ne_nil_of_close hA (hcov j hj)
    obtain ⟨row, hrowmem, hroweq⟩ := mapM_mem_some hrows (List.mem_range.mpr hj)
    rw [hw] at hroweq
    have hwrow : w = row := Option.some_inj.mp hroweq
    obtain ⟨pr, hprw⟩ := List.exists_mem_of_ne_nil w hwne
    have hprL : pr ∈ L := by
      rw [hflat]
      exact List.mem_flatten.mpr ⟨row, hrowmem, by rw [← hwrow]; exact hprw⟩
    have hsnd : pr.2 = j := (matchRow_mem_spec hw hprw).1
    exact List.mem_map.mpr ⟨pr, hprL, hsnd⟩
  refine ⟨L, hL, hmem, fun hB => ?_⟩
  have h0 : (0 : Nat) ∈ L.map Prod.snd :=
    hmem 0 (List.length_pos.mpr hB)
  intro hnil
  rw [hnil] at h0
  simp at h0

/-- Merging a batch into an array that already contains, within `ε`, every
value of the batch reproduces the array unchanged. -/
lemma merge_arrays_self {L B : List ℚ} {ε : ℚ} (hL : L ≠ [])
    (hcov : ∀ j < B.length, ∃ v ∈ L, |v - B.getD j 0| < ε) :
    ∃ m, merge_arrays L B ε = some (L, m) ∧
      (∀ j < B.length, j ∈ m.map Prod.snd) := by
  obtain ⟨m, hm, hmem, hne⟩ := match_values_covers hL hcov
  refine ⟨m, ?_, hmem⟩
  unfold merge_arrays
  rw [hm]
  show some (mergeApply L B m false, m) = some (L, m)
  have happ : mergeApply L B m false = L := by
    by_cases hB : B = []
    · subst hB
      unfold mergeApply
      by_cases hm0 : m.length = 0
      · rw [if_pos hm0, List.append_nil]
      · rw [if_neg hm0]
        have hdel : npDelete ([] : List ℚ) (m.map Prod.snd) = [] := by
          unfold npDelete; rfl
        rw [hdel, List.append_nil]
        simp
    · have hmne := hne hB
      have hdel : npDelete B (m.map Prod.snd) = [] :=
        npDelete_eq_nil fun k hk => hmem k hk
      unfold mergeApply
      rw [if_neg (by simpa [List.length_eq_zero] using hmne), hdel,
        List.append_nil]
      simp
  rw [happ]

/-- Core of the merge-idempotence claim: a successful merge absorbs, and a
second merge of the same batch into the result is the identity. -/
lemma merge_idempotent {head tail R : List ℚ} {m : List (Nat × Nat)}
    {ε : ℚ} (hε : 0 < ε) (h : merge_arrays head tail ε = some (R, m)) :
    ∃ m', merge_arrays R tail ε = some (R, m') ∧
      (∀ j < tail.length, j ∈ m'.map Prod.snd) := by
  unfold merge_arrays at h
  cases hmv : match_values head tail ε with
  | none => rw [hmv] at h; exact absurd h (by simp)
  | some L =>
    rw [hmv] at h
    have hpair : (mergeApply head tail L false, L) = (R, m) :=
      Option.some_inj.mp (by simpa using h)
    have hR : mergeApply head tail L false = R := congrArg Prod.fst hpair
    by_cases hhead : head = []
    · subst hhead
      by_cases htail : tail = []
      · subst htail
        have hL : L = [] := by
          have : match_values ([] : List ℚ) [] ε = some [] := rfl
          rw [this] at hmv
          exact (Option.some_inj.mp hmv).symm
        subst hL
        have hR' : R = [] := by rw [← hR]; rfl
        subst hR'
        exact ⟨[], by rw [show merge_arrays ([] : List ℚ) [] ε =
          some ([], []) from rfl], by intro j hj; simp at hj⟩
      · exact absurd hmv (by rw [match_values_nil_left htail]; simp)
    · have hcov : ∀ j < tail.length, ∃ v ∈ R, |v - tail.getD j 0| < ε := by
        intro j hj
        by_cases hjm : j ∈ L.map Prod.snd
        · obtain ⟨pr, hpr, hpr2⟩ := List.mem_map.mp hjm
          obtain ⟨h1, h2, h3, -⟩ := match_values_mem_spec hmv hpr
          refine ⟨head.getD pr.1 0, ?_, by rw [hpr2] at h3; exact h3⟩
          have hmemh : head.getD pr.1 0 ∈ head := by
            rw [List.getD_eq_getElem head 0 h1]; exact List.getElem_mem h1
          rw [← hR]
          unfold mergeApply
          by_cases hL0 : L.length = 0
          · rw [if_pos hL0]; exact List.mem_append.mpr (Or.inl hmemh)
          · rw [if_neg hL0]; exact List.mem_append.mpr (Or.inl hmemh)
        · refine ⟨tail.getD j 0, ?_, by simpa using hε⟩
          rw [← hR]
          unfold mergeApply
          by_cases hL0 : L.length = 0
          · rw [if_pos hL0]
            refine List.mem_append.mpr (Or.inr ?_)
            rw [List.getD_eq_getElem tail 0 hj]; exact List.getElem_mem hj
          · rw [if_neg hL0]
            exact List.mem_append.mpr (Or.inr (getD_mem_npDelete hj hjm))
      have hRne : R ≠ [] := by
        rw [← hR]
        unfold mergeApply
        by_cases hL0 : L.length = 0
        · rw [if_pos hL0]
          simp [List.append_eq_nil, hhead]
        · rw [if_neg hL0]
          simp [List.append_eq_nil, hhead]
      obtain ⟨m', hm', hmem'⟩ := merge_arrays_self hRne hcov
      exact ⟨m', hm', hmem'⟩

/-! Generic lemmas about numpy fancy assignment (foldl of `List.set`). -/

lemma length_foldl_set_fn [Inhabited α] (f : Nat × Nat → Nat)
    (g : Nat × Nat → α) (m : List (Nat × Nat)) (h0 : List α) :
    (m.foldl (fun h ij => h.set (f ij) (g ij)) h0).length = h0.length := by
  induction m generalizing h0 with
  | nil => rfl
  | cons ij m ih => rw [List.foldl_cons, ih, List.length_set]

lemma foldl_set_getD_not_mem [Inhabited α] (f : Nat × Nat → Nat)
    (g : Nat × Nat → α) (m : List (Nat × Nat)) (h0 : List α) {i : Nat}
    (hni : i ∉ m.map f) :
    (m.foldl (fun h ij => h.set (f ij) (g ij)) h0).getD i default
      = h0.getD i default := by
  induction m generalizing h0 with
  | nil => rfl
  | cons ij m ih =>
    have h1 : f ij ≠ i := fun h =>
      hni (by rw [List.map_cons, h]; exact List.mem_cons_self _ _)
    have h2 : i ∉ m.map f := fun hm =>
      hni (by rw [List.map_cons]; exact List.mem_cons_of_mem _ hm)
    rw [List.foldl_cons, ih (h0.set (f ij) (g ij)) h2,
      List.getD_eq_getElem?_getD, List.getElem?_set_ne h1,
      ← List.getD_eq_getElem?_getD]

lemma foldl_set_getD_mem [Inhabited α] (f : Nat × Nat → Nat)
    (g : Nat × Nat → α) (m : List (Nat × Nat)) (h0 : List α)
    (hnod : (m.map f).Nodup) {pr : Nat × Nat} (hpr : pr ∈ m)
    (hlt : f pr < h0.length) :
    (m.foldl (fun h ij => h.set (f ij) (g ij)) h0).getD (f pr) default
      = g pr := by
  induction m generalizing h0 with
  | nil => simp at hpr
  | cons ij m ih =>
    rw [List.foldl_cons]
    rcases List.mem_cons.mp hpr with heq | hmem
    · subst heq
      have hni : f pr ∉ m.map f := by
        rw [List.map_cons] at hnod
        exact (List.nodup_cons.mp hnod).1
      rw [foldl_set_getD_not_mem f g m _ hni]
      rw [List.getD_eq_getElem?_getD,
        List.getElem?_set_self (by simpa using hlt)]
      rfl
    · have hnod' : (m.map f).Nodup := by
        rw [List.map_cons] at hnod
        exact (List.nodup_cons.mp hnod).2
      exact ih (h0.set (f ij) (g ij)) hnod' hmem
        (by rw [List.length_set]; exact hlt)

/-! Claim theorems for the tolerant matcher and the merger. -/

/-- Definition following the spec's words (§4.1), for comparison with the
source behavior: for a sorted reference array `A` and query value `b`, the
positions of the two neighbors the claim allows — the element at `b`'s
insertion point (when one exists) and the element immediately before it
(when one exists). -/
def specNeighbors (A : List ℚ) (b : ℚ) : List Nat :=
  (if A.countP (fun a => decide (a ≤ b)) < A.length
    then [A.countP fun a => decide (a ≤ b)] else []) ++
  (if 0 < A.countP fun a => decide (a ≤ b)
    then [A.countP (fun a => decide (a ≤ b)) - 1] else [])

/-- C6: matcher soundness.  For a sorted reference array `A`, a query
array `B` and tolerance `ε > 0`, every pair `(i, j)` returned by
`match_values` satisfies `|A[i] - B[j]| < ε` with `i` an index into `A`
and `j` an index into `B`; and when no value of `A` lies within `ε` of any
value of `B`, the returned set of pairs is empty. -/
theorem c6_matcher_soundness (A B : List ℚ) (ε : ℚ) (L : List (Nat × Nat))
    (hsorted : A.Sorted (· ≤ ·)) (hε : 0 < ε)
    (h : match_values A B ε = some L) :
    (∀ pr ∈ L, pr.1 < A.length ∧ pr.2 < B.length ∧
      |A.getD pr.1 0 - B.getD pr.2 0| < ε) ∧
    ((∀ v ∈ A, ∀ w ∈ B, ¬ |v - w| < ε) → L = []) := by
  constructor
  · intro pr hpr
    obtain ⟨h1, h2, h3, -⟩ := match_values_mem_spec h hpr
    exact ⟨h1, h2, h3⟩
  · intro hfar
    rw [List.eq_nil_iff_forall_not_mem]
    intro pr hpr
    obtain ⟨h1, h2, h3, -⟩ := match_values_mem_spec h hpr
    refine hfar (A.getD pr.1 0) ?_ (B.getD pr.2 0) ?_ h3
    · rw [List.getD_eq_getElem A 0 h1]; exact List.getElem_mem h1
    · rw [List.getD_eq_getElem B 0 h2]; exact List.getElem_mem h2

theorem c6_matcher_soundness_witness :
    (([0, 10] : List ℚ).Sorted (· ≤ ·) ∧ (0 : ℚ) < 1 ∧
      match_values [0, 10] [5, 10] 1 = some [(1, 1)]) ∧
    ((∀ pr ∈ [((1 : Nat), (1 : Nat))], pr.1 < ([0, 10] : List ℚ).length ∧
        pr.2 < ([5, 10] : List ℚ).length ∧
        |([0, 10] : List ℚ).getD pr.1 0 - ([5, 10] : List ℚ).getD pr.2 0|
          < 1) ∧
      ((∀ v ∈ ([0, 10] : List ℚ), ∀ w ∈ ([5, 10] : List ℚ),
        ¬ |v - w| < 1) → [((1 : Nat), (1 : Nat))] = [])) :=
  ⟨⟨by decide, by norm_num, by decide⟩,
    c6_matcher_soundness [0, 10] [5, 10] 1 [(1, 1)] (by decide)
      (by norm_num) (by decide)⟩

/-- C7 counterexample: the claim says every returned pair compares a query
only against the element at (or after) its insertion point and the one
immediately before.  For the sorted array `A = [0, 1/2, 9/10]` and the
query `-3/10` (below all of `A`) with `ε = 2`, the insertion point is `0`,
so the claim allows only index `0`; but the source's `ind - 1 = -1` wraps
around to the LAST element, and the pair `(2, 0)` is returned even though
index `2` is not among the claim's neighbors. -/
theorem c7_matcher_locality_counterexample :
    ([0, 1/2, 9/10] : List ℚ).Sorted (· ≤ ·) ∧ (0 : ℚ) < 2 ∧
    match_values [0, 1/2, 9/10] [-(3/10)] 2 = some [(0, 0), (2, 0)] ∧
    ((2 : Nat), (0 : Nat)) ∈ [((0 : Nat), (0 : Nat)), (2, 0)] ∧
    specNeighbors [0, 1/2, 9/10] (-(3/10)) = [0] ∧
    (2 : Nat) ∉ specNeighbors [0, 1/2, 9/10] (-(3/10)) := by
  refine ⟨by decide, by norm_num, by decide, by decide, by decide, by decide⟩

/-- C7 (amended): in every returned pair `(i, j)`, `i` is the argsort
entry at one of the two candidate positions the source actually compares:
the clamped insertion position `min(insertion, len(A) - 1)` or the
position immediately before it taken cyclically (position `-1` wrapping
around to the last element).  For queries inside the array's range these
are the claim's two neighbors; for queries below all of `A` the second
candidate is the largest element, and for queries above all of `A` both
candidates shift down one position. -/
theorem c7_matcher_locality_amended (A B : List ℚ) (ε : ℚ)
    (L : List (Nat × Nat)) (h : match_values A B ε = some L) :
    ∀ pr ∈ L, ∃ k, k < A.length ∧ pr.1 = (argsort A).getD k 0 ∧
      (k = wrapIdx A.length (rIdx A B pr.2) ∨
        k = wrapIdx A.length (rIdx A B pr.2 - 1)) :=
  fun pr hpr => (match_values_mem_spec h hpr).2.2.2

theorem c7_matcher_locality_amended_witness :
    (match_values [0, 1/2, 9/10] [-(3/10)] 2 = some [(0, 0), (2, 0)]) ∧
    (∀ pr ∈ [((0 : Nat), (0 : Nat)), (2, 0)],
      ∃ k, k < ([0, 1/2, 9/10] : List ℚ).length ∧
        pr.1 = (argsort ([0, 1/2, 9/10] : List ℚ)).getD k 0 ∧
        (k = wrapIdx ([0, 1/2, 9/10] : List ℚ).length
            (rIdx [0, 1/2, 9/10] [-(3/10)] pr.2) ∨
          k = wrapIdx ([0, 1/2, 9/10] : List ℚ).length
            (rIdx [0, 1/2, 9/10] [-(3/10)] pr.2 - 1))) :=
  ⟨by decide,
    c7_matcher_locality_amended [0, 1/2, 9/10] [-(3/10)] 2 [(0, 0), (2, 0)]
      (by decide)⟩

/-- C8 counterexample: `match_values` with an empty reference array and a
nonempty query raises an `IndexError` (the clamped insertion position is
`min(0, -1) = -1` and indexing the empty sorted array fails), so it does
not return an empty set of pairs. -/
theorem c8_matcher_empty_counterexample :
    match_values ([] : List ℚ) [0] 1 = none ∧ (0 : ℚ) < 1 := by
  exact ⟨rfl, by norm_num⟩

/-- C8 (amended): `match_values` returns the empty pair set when the query
array is empty, and never raises when the reference array is nonempty; but
when the reference array is empty and the query array is nonempty it
raises (returns `none`) instead of returning an empty set. -/
theorem c8_matcher_empty_amended (A B : List ℚ) (ε : ℚ) :
    (B = [] → match_values A B ε = some []) ∧
    (A ≠ [] → ∃ L, match_values A B ε = some L) ∧
    (A = [] → B ≠ [] → match_values A B ε = none) := by
  refine ⟨?_, ?_, ?_⟩
  · intro hB; subst hB; rfl
  · exact fun hA => match_values_eq_some_of_ne_nil hA
  · intro hA hB; subst hA; exact match_values_nil_left hB

theorem c8_matcher_empty_amended_witness :
    (match_values [3] ([] : List ℚ) 1 = some []) ∧
    (∃ L, match_values [3] [7] 1 = some L) ∧
    (match_values ([] : List ℚ) [7] 1 = none) :=
  ⟨(c8_matcher_empty_amended [3] [] 1).1 rfl,
    (c8_matcher_empty_amended [3] [7] 1).2.1 (by decide),
    (c8_matcher_empty_amended [] [7] 1).2.2 rfl (by decide)⟩

/-- C10: `merge_arrays` mutates its argument arrays in place.  With
`replace="B->A"` the matched entries of the caller's head array hold the
corresponding tail values after the call; with the default
`replace="A->B"` the matched entries of the caller's tail array hold the
corresponding head values.  Concretely, the depth-merge of C4's scenario
rewrites the caller's input depth array `[20.001, 40]` to `[20, 40]`. -/
theorem c10_merge_mutates_arguments :
    (∀ (head tail : List ℚ) (mapping : List (Nat × Nat)),
      (mapping.map Prod.fst).Nodup →
      ∀ pr ∈ mapping, pr.1 < head.length →
        (mergeArraysPost head tail mapping true).1.getD pr.1 0
          = tail.getD pr.2 0) ∧
    (∀ (head tail : List ℚ) (mapping : List (Nat × Nat)),
      (mapping.map Prod.snd).Nodup →
      ∀ pr ∈ mapping, pr.2 < tail.length →
        (mergeArraysPost head tail mapping false).2.getD pr.2 0
          = head.getD pr.1 0) ∧
    (match_values [10, 20, 30] [20001/1000, 40] (1/100) = some [(1, 0)] ∧
      mergeArraysPost [10, 20, 30] [20001/1000, 40] [(1, 0)] false
        = ([10, 20, 30], [20, 40]) ∧
      ([20, 40] : List ℚ) ≠ [20001/1000, 40]) := by
  refine ⟨?_, ?_, by decide, by decide, by decide⟩
  · intro head tail mapping hnod pr hpr hlt
    have hne : mapping.length ≠ 0 := by
      intro h0
      rw [List.length_eq_zero] at h0
      rw [h0] at hpr
      simp at hpr
    unfold mergeArraysPost
    rw [if_neg hne, if_pos rfl]
    exact foldl_set_getD_mem Prod.fst (fun ij => tail.getD ij.2 0)
      mapping head hnod hpr hlt
  · intro head tail mapping hnod pr hpr hlt
    have hne : mapping.length ≠ 0 := by
      intro h0
      rw [List.length_eq_zero] at h0
      rw [h0] at hpr
      simp at hpr
    unfold mergeArraysPost
    rw [if_neg hne, if_neg (by simp)]
    exact foldl_set_getD_mem Prod.snd (fun ij => head.getD ij.1 0)
      mapping tail hnod hpr hlt

theorem c10_merge_mutates_arguments_witness :
    (([((1 : Nat), (0 : Nat))].map Prod.fst).Nodup ∧
      ((1 : Nat), (0 : Nat)) ∈ [((1 : Nat), (0 : Nat))] ∧
      (1 : Nat) < ([10, 20, 30] : List ℚ).length) ∧
    (mergeArraysPost [10, 20, 30] [20001/1000, 40] [(1, 0)] true).1.getD 1 0
      = ([20001/1000, 40] : List ℚ).getD 0 0 :=
  ⟨⟨by decide, by decide, by decide⟩,
    c10_merge_mutates_arguments.1 [10, 20, 30] [20001/1000, 40] [(1, 0)]
      (by decide) (1, 0) (by decide) (by decide)⟩

/-! Permutation lemmas for the depth-sort pass. -/

lemma length_permuteIdx [Inhabited α] (p : List Nat) (l : List α) :
    (permuteIdx p l).length = p.length := List.length_map _ _

lemma permuteIdx_getD [Inhabited α] {p : List Nat} (l : List α) {k : Nat}
    (hk : k < p.length) :
    (permuteIdx p l).getD k default = l.getD (p.getD k 0) default := by
  unfold permuteIdx
  have hk' : k < (p.map fun i => l.getD i default).length := by
    rw [List.length_map]; exact hk
  rw [List.getD_eq_getElem _ default hk', List.getElem_map,
    List.getD_eq_getElem p 0 hk]

lemma permuteIdx_getD_rat (l : List Rat) {p : List Nat} {k : Nat}
    (hk : k < p.length) :
    (permuteIdx p l).getD k 0 = l.getD (p.getD k 0) 0 :=
  permuteIdx_getD l hk

lemma argsort_getD_lt {n : Nat} {p : List Nat}
    (hp : List.Perm p (List.range n)) {k : Nat} (hk : k < n) :
    (argsort p).getD k 0 < n := by
  have hlen : p.length = n := by simpa using hp.length_eq
  have hq : (argsort p).length = n := by rw [length_argsort, hlen]
  have hmem : (argsort p).getD k 0 ∈ argsort p := by
    rw [List.getD_eq_getElem _ 0 (by rw [hq]; exact hk)]
    exact List.getElem_mem _
  have := lt_of_mem_argsort hmem
  rwa [hlen] at this

/-- The argsort of an integer permutation array is its inverse: sorting
the values of a permutation of `0..n-1` yields `0..n-1` itself, so
composing the two index lookups is the identity. -/
lemma argsort_inverse {n : Nat} {p : List Nat}
    (hp : List.Perm p (List.range n)) :
    ∀ k, k < n → p.getD ((argsort p).getD k 0) 0 = k := by
  intro k hk
  have hlen : p.length = n := by simpa using hp.length_eq
  have hq : (argsort p).length = n := by rw [length_argsort, hlen]
  have hsorted : ((argsort p).map fun i => p.getD i default).Sorted
      (· ≤ ·) := argsortVals_sorted p
  have hperm : List.Perm ((argsort p).map fun i => p.getD i default)
      (List.range n) := (argsortVals_perm p).trans hp
  have hrange : (List.range n).Sorted (· ≤ ·) :=
    (List.pairwise_lt_range n).imp le_of_lt
  have heq : ((argsort p).map fun i => p.getD i default) = List.range n :=
    List.eq_of_perm_of_sorted hperm hsorted hrange
  have hk' : k < ((argsort p).map fun i => p.getD i default).length := by
    rw [List.length_map, hq]; exact hk
  have h1 : ((argsort p).map fun i => p.getD i default).getD k 0 = k := by
    rw [heq, List.getD_eq_getElem _ 0 (by simpa using hk),
      List.getElem_range]
  rw [List.getD_eq_getElem _ 0 hk', List.getElem_map] at h1
  have h2 : (argsort p).getD k 0 = (argsort p)[k] :=
    List.getD_eq_getElem _ 0 (by rw [hq]; exact hk)
  rw [h2]
  exact h1

lemma isNonDecreasing_iff : ∀ l : List ℚ,
    isNonDecreasing l = true ↔ l.Chain' (· ≤ ·)
  | [] => by
    constructor
    · intro _; exact List.chain'_nil
    · intro _; rfl
  | [a] => by
    constructor
    · intro _; exact List.chain'_singleton a
    · intro _; rfl
  | a :: b :: t => by
    have ih := isNonDecreasing_iff (b :: t)
    unfold isNonDecreasing at ih ⊢
    rw [List.chain'_cons, ← ih]
    show ((a, b) :: (b :: t).zip t).all _ = true ↔ _
    rw [List.all_cons, Bool.and_eq_true, decide_eq_true_eq]
    exact Iff.rfl

lemma permuteIdx_argsort_sorted (d : List ℚ) :
    (permuteIdx (argsort d) d).Chain' (· ≤ ·) := by
  rw [List.chain'_iff_pairwise]
  exact argsortVals_sorted d

/-- Unfolding equation for `sort_depths` once the `DEPTH` values are
known. -/
lemma sort_depths_eq [Inhabited V] (s : DH V) (d : List ℚ)
    (hd : s.depth = some d) :
    sort_depths s = if isNonDecreasing d then s else
      { s with
          depth := some (permuteIdx (argsort d) d)
          vdata := s.vdata.map fun a =>
            permuteIdx (argsort d) (padTo s.vertices.length a)
          vertices := if s.vertices.isEmpty then s.vertices
            else permuteIdx (argsort d) s.vertices
          cells := s.cells.map fun c =>
            ((argsort (argsort d)).getD c.1 0,
              (argsort (argsort d)).getD c.2 0) } := by
  unfold sort_depths
  rw [hd]

/-- C2: when `sort_depths` finds `DEPTH` not non-decreasing it applies
the sorting permutation `argsort DEPTH` to the vertices and to every
per-vertex data array, remaps every cell's vertex indices through the
inverse permutation `np.argsort(sort_ind)`, leaving the per-cell data
(`FROM`, `TO`, other CELL children) untouched, so that every cell refers
to the same vertex coordinates before and after the pass; when `DEPTH` is
already non-decreasing, the state is unchanged. -/
theorem c2_sort_depths_permutes_consistently (s : DH ℚ) (d : List ℚ)
    (hd : s.depth = some d) (hlen : d.length = s.vertices.length)
    (hvd : ∀ a ∈ s.vdata, a.length = s.vertices.length)
    (hcells : ∀ c ∈ s.cells, c.1 < s.vertices.length ∧
      c.2 < s.vertices.length) :
    (d.Chain' (· ≤ ·) → sort_depths s = s) ∧
    (¬ d.Chain' (· ≤ ·) →
      List.Perm (argsort d) (List.range d.length) ∧
      (sort_depths s).depth = some (permuteIdx (argsort d) d) ∧
      (permuteIdx (argsort d) d).Chain' (· ≤ ·) ∧
      (sort_depths s).vertices = permuteIdx (argsort d) s.vertices ∧
      (sort_depths s).vdata
        = s.vdata.map (fun a => permuteIdx (argsort d) a) ∧
      (sort_depths s).cells = s.cells.map (fun c =>
        ((argsort (argsort d)).getD c.1 0,
          (argsort (argsort d)).getD c.2 0)) ∧
      (sort_depths s).fromv = s.fromv ∧ (sort_depths s).tov = s.tov ∧
      (sort_depths s).cdata = s.cdata ∧
      (∀ c ∈ s.cells,
        (sort_depths s).vertices.getD ((argsort (argsort d)).getD c.1 0) 0
          = s.vertices.getD c.1 0 ∧
        (sort_depths s).vertices.getD ((argsort (argsort d)).getD c.2 0) 0
          = s.vertices.getD c.2 0)) := by
  constructor
  · intro hchain
    rw [sort_depths_eq s d hd, if_pos ((isNonDecreasing_iff d).mpr hchain)]
  · intro hchain
    have hnd : isNonDecreasing d = false := by
      cases h : isNonDecreasing d with
      | false => rfl
      | true => exact absurd ((isNonDecreasing_iff d).mp h) hchain
    have hdne : d ≠ [] := by
      intro h; subst h; exact hchain List.chain'_nil
    have hvne : ¬ s.vertices.isEmpty = true := by
      rw [List.isEmpty_iff]
      intro h
      rw [h] at hlen
      exact hdne (List.eq_nil_of_length_eq_zero (by simpa using hlen))
    have hs' := sort_depths_eq s d hd
    rw [if_neg (by rw [hnd]; simp)] at hs'
    have hperm : List.Perm (argsort d) (List.range d.length) :=
      argsort_perm_range d
    have hpad : ∀ a ∈ s.vdata, padTo s.vertices.length a = a := by
      intro a ha
      unfold padTo
      rw [if_neg (by rw [hvd a ha]; omega)]
    refine ⟨hperm, ?_, permuteIdx_argsort_sorted d, ?_, ?_, ?_, ?_, ?_,
      ?_, ?_⟩
    · rw [hs']
    · rw [hs']
      show (if s.vertices.isEmpty then s.vertices
        else permuteIdx (argsort d) s.vertices) = _
      rw [if_neg hvne]
    · rw [hs']
      show s.vdata.map (fun a =>
        permuteIdx (argsort d) (padTo s.vertices.length a)) = _
      exact List.map_congr_left fun a ha => by rw [hpad a ha]
    · rw [hs']
    · rw [hs']
    · rw [hs']
    · rw [hs']
    · intro c hc
      have hperm' : List.Perm (argsort d) (List.range s.vertices.length) := by
        rw [← hlen]; exact hperm
      have hvert : (sort_depths s).vertices
          = permuteIdx (argsort d) s.vertices := by
        rw [hs']
        show (if s.vertices.isEmpty then s.vertices
          else permuteIdx (argsort d) s.vertices) = _
        rw [if_neg hvne]
      have hlen' : (argsort d).length = s.vertices.length := by
        rw [length_argsort, hlen]
      constructor
      · rw [hvert, permuteIdx_getD_rat s.vertices
          (by rw [hlen']; exact argsort_getD_lt hperm' (hcells c hc).1)]
        rw [argsort_inverse hperm' c.1 (hcells c hc).1]
      · rw [hvert, permuteIdx_getD_rat s.vertices
          (by rw [hlen']; exact argsort_getD_lt hperm' (hcells c hc).2)]
        rw [argsort_inverse hperm' c.2 (hcells c hc).2]

/-- A small concrete drillhole with unsorted `DEPTH`, used as the witness
input of the depth-sort theorem. -/
def dhC2 : DH ℚ :=
  { path := true, vertices := [100, 200, 300], cells := [(2, 0)],
    depthCreated := true, depth := some [30, 10, 20],
    vdata := [[some 7, some 8, some 9]], fromv := none, tov := none,
    cdata := [], odata := [] }

theorem c2_sort_depths_permutes_consistently_witness :
    (dhC2.depth = some [30, 10, 20] ∧
      ([30, 10, 20] : List ℚ).length = dhC2.vertices.length) ∧
    ¬ ([30, 10, 20] : List ℚ).Chain' (· ≤ ·) ∧
    (sort_depths dhC2).vertices
      = permuteIdx (argsort ([30, 10, 20] : List ℚ)) [100, 200, 300] ∧
    (sort_depths dhC2).vertices.getD
      ((argsort (argsort ([30, 10, 20] : List ℚ))).getD 2 0) 0 = 300 := by
  have hnot : ¬ ([30, 10, 20] : List ℚ).Chain' (· ≤ ·) := fun h =>
    absurd ((isNonDecreasing_iff _).mpr h) (by decide)
  refine ⟨⟨rfl, by decide⟩, hnot, ?_, ?_⟩
  · exact ((c2_sort_depths_permutes_consistently dhC2 [30, 10, 20] rfl
      (by decide) (by decide) (by decide)).2 hnot).2.2.2.1
  · have h := (((c2_sort_depths_permutes_consistently dhC2 [30, 10, 20] rfl
      (by decide) (by decide) (by decide)).2 hnot).2.2.2.2.2.2.2.2.2
      (2, 0) (by decide)).1
    rw [h]
    decide

/-! Branch equations for `validate_log_data` and `add_data` on a single
log item. -/

lemma vlog_eq_shape (dsv : ℚ → V) (s : DH V) {dep vals : List ℚ} (ε : ℚ)
    (h : dep.length ≠ vals.length) :
    validate_log_data dsv s dep vals ε = .error (.shapeMismatch, s) := by
  unfold validate_log_data
  rw [if_pos h]

lemma vlog_eq_first (dsv : ℚ → V) (s : DH V) {dep vals : List ℚ} (ε : ℚ)
    (hlen : dep.length = vals.length) (hnone : s.depth = none)
    (hpath : s.path = true) (hvert : s.vertices = []) :
    validate_log_data dsv s dep vals ε =
      .ok ({ s with
               depthCreated := true
               vertices := dep.map dsv
               depth := some dep }, vals.map some) := by
  obtain ⟨p, vs, cs, dc, dp, vd, fv, tv, cd, od⟩ := s
  simp only at hnone hpath hvert
  subst hnone hpath hvert
  simp [validate_log_data, desurvey, addVertices, hlen]

lemma vlog_eq_first_nan (dsv : ℚ → V) (s : DH V) {dep vals : List ℚ}
    (ε : ℚ) (hlen : dep.length = vals.length) (hnone : s.depth = none)
    (hpath : s.path = true) (hvert : s.vertices ≠ []) :
    validate_log_data dsv s dep vals ε =
      .error (.unmodeledNaN, { s with
               depthCreated := true
               vertices := s.vertices ++ dep.map dsv }) := by
  obtain ⟨p, vs, cs, dc, dp, vd, fv, tv, cd, od⟩ := s
  simp only at hnone hpath hvert
  subst hnone hpath
  have hlv : ¬ vs.length = 0 := by
    intro h; exact hvert (List.eq_nil_of_length_eq_zero h)
  simp [validate_log_data, desurvey, addVertices, hlen, hlv]

lemma vlog_eq_nopath_first (dsv : ℚ → V) (s : DH V) {dep vals : List ℚ}
    (ε : ℚ) (hlen : dep.length = vals.length) (hnone : s.depth = none)
    (hpath : s.path = false) :
    validate_log_data dsv s dep vals ε =
      .error (.missingPath, { s with depthCreated := true }) := by
  obtain ⟨p, vs, cs, dc, dp, vd, fv, tv, cd, od⟩ := s
  simp only at hnone hpath
  subst hnone hpath
  simp [validate_log_data, desurvey, hlen]

lemma vlog_eq_merge_none (dsv : ℚ → V) (s : DH V) {d dep vals : List ℚ}
    {ε : ℚ} (hlen : dep.length = vals.length) (hd : s.depth = some d)
    (hmv : merge_arrays d dep ε = none) :
    validate_log_data dsv s dep vals ε =
      .error (.matchIndexError, { s with depthCreated := true }) := by
  obtain ⟨p, vs, cs, dc, dp, vd, fv, tv, cd, od⟩ := s
  simp only at hd
  subst hd
  simp [validate_log_data, hlen, hmv]

lemma vlog_eq_merge (dsv : ℚ → V) (s : DH V) {d dep vals R : List ℚ}
    {m : List (Nat × Nat)} {ε : ℚ} (hlen : dep.length = vals.length)
    (hd : s.depth = some d) (hpath : s.path = true)
    (hmv : merge_arrays d dep ε = some (R, m)) :
    validate_log_data dsv s dep vals ε =
      .ok ({ s with
               depthCreated := true
               vertices := s.vertices ++ (npDelete dep (m.map Prod.snd)).map dsv
               depth := some R },
        mergeApply (List.replicate s.vertices.length (none : Option ℚ))
          (vals.map some) m true) := by
  obtain ⟨p, vs, cs, dc, dp, vd, fv, tv, cd, od⟩ := s
  simp only at hd hpath
  subst hd hpath
  simp [validate_log_data, desurvey, addVertices, hlen, hmv]

lemma vlog_eq_nopath_merge (dsv : ℚ → V) (s : DH V) {d dep vals R : List ℚ}
    {m : List (Nat × Nat)} {ε : ℚ} (hlen : dep.length = vals.length)
    (hd : s.depth = some d) (hpath : s.path = false)
    (hmv : merge_arrays d dep ε = some (R, m)) :
    validate_log_data dsv s dep vals ε =
      .error (.missingPath, { s with depthCreated := true }) := by
  obtain ⟨p, vs, cs, dc, dp, vd, fv, tv, cd, od⟩ := s
  simp only at hd hpath
  subst hd hpath
  simp [validate_log_data, desurvey, hlen, hmv]

lemma add_data_log_tol_err (s : DH ℚ) (dep vals : List ℚ) {ε : ℚ}
    (hε : ¬ 0 < ε) :
    add_data id s [logItem dep vals ε] = .error (.invalidTolerance, s) := by
  simp [add_data, addItems, addItem, logItem, hε, Except.map]

lemma add_data_log_ok {s s1 : DH ℚ} {dep vals : List ℚ} {ε : ℚ}
    {v : List (Option ℚ)} (hε : 0 < ε)
    (hv : validate_log_data id s dep vals ε = .ok (s1, v)) :
    add_data id s [logItem dep vals ε] =
      .ok (sort_depths { s1 with vdata := s1.vdata ++ [v] }) := by
  simp [add_data, addItems, addItem, logItem, hε, hv, Except.map]

lemma add_data_log_err {s : DH ℚ} {dep vals : List ℚ} {ε : ℚ}
    {es : IngestError × DH ℚ} (hε : 0 < ε)
    (hv : validate_log_data id s dep vals ε = .error es) :
    add_data id s [logItem dep vals ε] = .error es := by
  simp [add_data, addItems, addItem, logItem, hε, hv, Except.map]

/-! Error-state lemmas: which branches leave the drillhole untouched. -/

/-- Every exception of `validate_interval_data` is raised before the
state is updated: the carried state is the input state. -/
lemma vint_err_state {dsv : ℚ → V} {s s' : DH V} {ft : List (List ℚ)}
    {vals : List ℚ} {ε : ℚ} {e : IngestError}
    (h : validate_interval_data dsv s ft vals ε = .error (e, s')) :
    s' = s := by
  simp only [validate_interval_data] at h
  repeat' split at h
  all_goals try exact Except.noConfusion h
  all_goals
    exact (((Prod.mk.injEq _ _ _ _).mp (Except.error.inj h)).2).symm

/-- The exceptions of `validate_log_data` other than the missing-path,
match-index and NaN-padding ones carry the input state unchanged. -/
lemma vlog_err_state {dsv : ℚ → V} {s s' : DH V} {dep vals : List ℚ}
    {ε : ℚ} {e : IngestError}
    (h : validate_log_data dsv s dep vals ε = .error (e, s'))
    (h1 : e ≠ .missingPath) (h2 : e ≠ .matchIndexError)
    (h3 : e ≠ .unmodeledNaN) : s' = s := by
  by_cases hlen : dep.length = vals.length
  · cases hdp : s.depth with
    | none =>
      cases hpath : s.path with
      | false =>
        rw [vlog_eq_nopath_first dsv s ε hlen hdp hpath] at h
        obtain ⟨he, _⟩ := (Prod.mk.injEq _ _ _ _).mp (Except.error.inj h)
        exact absurd he.symm h1
      | true =>
        by_cases hv : s.vertices = []
        · rw [vlog_eq_first dsv s ε hlen hdp hpath hv] at h
          exact Except.noConfusion h
        · rw [vlog_eq_first_nan dsv s ε hlen hdp hpath hv] at h
          obtain ⟨he, _⟩ := (Prod.mk.injEq _ _ _ _).mp (Except.error.inj h)
          exact absurd he.symm h3
    | some d =>
      cases hmv : merge_arrays d dep ε with
      | none =>
        rw [vlog_eq_merge_none dsv s hlen hdp hmv] at h
        obtain ⟨he, _⟩ := (Prod.mk.injEq _ _ _ _).mp (Except.error.inj h)
        exact absurd he.symm h2
      | some Rm =>
        obtain ⟨R, m⟩ := Rm
        cases hpath : s.path with
        | false =>
          rw [vlog_eq_nopath_merge dsv s hlen hdp hpath hmv] at h
          obtain ⟨he, _⟩ := (Prod.mk.injEq _ _ _ _).mp (Except.error.inj h)
          exact absurd he.symm h1
        | true =>
          rw [vlog_eq_merge dsv s hlen hdp hpath hmv] at h
          exact Except.noConfusion h
  · rw [vlog_eq_shape dsv s ε hlen] at h
    exact (((Prod.mk.injEq _ _ _ _).mp (Except.error.inj h)).2).symm

/-- The four validation errors of the claim (shape, pairwise, tolerance,
association) leave `addItem` with the input state. -/
lemma addItem_err_state (dsv : ℚ → V) {s s' : DH V} {a : DataAttr}
    {e : IngestError} (h : addItem dsv s a = .error (e, s'))
    (hok : e = .shapeMismatch ∨ e = .notPairwise ∨
      e = .invalidTolerance ∨ e = .missingAssociation) :
    s' = s := by
  have hne : e ≠ .missingPath ∧ e ≠ .matchIndexError ∧ e ≠ .unmodeledNaN ∧
      e ≠ .brokenState ∧ e ≠ .cellMapMismatch := by
    rcases hok with rfl | rfl | rfl | rfl <;> refine ⟨?_, ?_, ?_, ?_, ?_⟩ <;>
      intro hc <;> exact IngestError.noConfusion hc
  obtain ⟨av, ad, aft, aas, ac⟩ := a
  cases av with
  | none =>
    simp only [addItem] at h
    exact (((Prod.mk.injEq _ _ _ _).mp (Except.error.inj h)).2).symm
  | some vals =>
    have hTol : ∀ tol : ℚ,
        (validate_log_data dsv s (ad.getD []) vals tol).map
            (fun sv => { sv.1 with vdata := sv.1.vdata ++ [sv.2] }) =
          .error (e, s') → ad.isSome → s' = s := by
      intro tol htol had
      cases hval : validate_log_data dsv s (ad.getD []) vals tol with
      | error es =>
        rw [hval] at htol
        simp only [Except.map] at htol
        obtain ⟨e0, s0⟩ := es
        obtain ⟨he, hs⟩ := (Prod.mk.injEq _ _ _ _).mp (Except.error.inj htol)
        subst he hs
        exact vlog_err_state hval hne.1 hne.2.1 hne.2.2.1
      | ok sv =>
        rw [hval] at htol
        exact Except.noConfusion htol
    have hInt : ∀ (ft : List (List ℚ)) (tol : ℚ),
        (validate_interval_data dsv s ft vals tol).map
            (fun sv => { sv.1 with cdata := sv.1.cdata ++ [sv.2] }) =
          .error (e, s') → s' = s := by
      intro ft tol htol
      cases hval : validate_interval_data dsv s ft vals tol with
      | error es =>
        rw [hval] at htol
        simp only [Except.map] at htol
        obtain ⟨e0, s0⟩ := es
        obtain ⟨he, hs⟩ := (Prod.mk.injEq _ _ _ _).mp (Except.error.inj htol)
        subst he hs
        exact vint_err_state hval
      | ok sv =>
        rw [hval] at htol
        exact Except.noConfusion htol
    cases ac with
    | some c =>
      by_cases hc : 0 < c
      · cases ad with
        | some dep =>
          simp only [addItem, if_pos hc] at h
          exact hTol c h rfl
        | none =>
          cases aft with
          | some ft =>
            simp only [addItem, if_pos hc] at h
            exact hInt ft c h
          | none =>
            by_cases ha : aas = some "OBJECT"
            · simp only [addItem, if_pos hc, if_pos ha] at h
              exact Except.noConfusion h
            · simp only [addItem, if_pos hc, if_neg ha] at h
              exact (((Prod.mk.injEq _ _ _ _).mp (Except.error.inj h)).2).symm
      · simp only [addItem, if_neg hc] at h
        exact (((Prod.mk.injEq _ _ _ _).mp (Except.error.inj h)).2).symm
    | none =>
      cases ad with
      | some dep =>
        simp only [addItem] at h
        exact hTol (1 / 100) h rfl
      | none =>
        cases aft with
        | some ft =>
          simp only [addItem] at h
          exact hInt ft (1 / 100) h
        | none =>
          by_cases ha : aas = some "OBJECT"
          · simp only [addItem, if_pos ha] at h
            exact Except.noConfusion h
          · simp only [addItem, if_neg ha] at h
            exact (((Prod.mk.injEq _ _ _ _).mp (Except.error.inj h)).2).symm

/-- The drillhole reached after ingesting the first (well-formed) entry of
a two-entry `add_data` dictionary whose second entry then raises: two
vertices already exist although the call as a whole failed. -/
def sBadC9 : DH ℚ :=
  { path := true, vertices := [10, 20], cells := [], depthCreated := true,
    depth := some [10, 20], vdata := [[some 1, some 2]], fromv := none,
    tov := none, cdata := [], odata := [] }

/-- C9 counterexample: an `add_data` call with two entries where the
second fails its shape validation leaves the drillhole with the first
entry's vertices, depths and data already added — the claimed "no
mutation before any validation error" does not hold across the entries of
one call. -/
theorem c9_ingestion_atomicity_counterexample :
    add_data id dh0 [logItem [10, 20] [1, 2] (1/100),
      logItem [1, 2] [1] (1/100)] = .error (.shapeMismatch, sBadC9) ∧
    sBadC9.vertices.length = 2 ∧ dh0.vertices.length = 0 ∧
    sBadC9 ≠ dh0 := by
  decide

/-- C9 (amended): for a SINGLE-entry `add_data` call, each of the four
claimed validation errors — value/key shape mismatch, from-to not
pairwise, non-positive collocation distance, missing association — is
raised before any mutation, leaving the drillhole state unchanged. -/
theorem c9_ingestion_atomicity_amended (s : DH ℚ) (a : DataAttr)
    (e : IngestError) (s' : DH ℚ)
    (h : add_data id s [a] = .error (e, s'))
    (hok : e = .shapeMismatch ∨ e = .notPairwise ∨
      e = .invalidTolerance ∨ e = .missingAssociation) :
    s' = s := by
  cases hi : addItem id s a with
  | error es =>
    have hval : add_data id s [a] = .error es := by
      simp [add_data, addItems, hi, Except.map]
    rw [hval] at h
    obtain ⟨e0, s0⟩ := es
    obtain ⟨he, hs⟩ := (Prod.mk.injEq _ _ _ _).mp (Except.error.inj h)
    subst he hs
    exact addItem_err_state id hi hok
  | ok t =>
    have hval : add_data id s [a] = .ok (sort_depths t) := by
      simp [add_data, addItems, hi, Except.map]
    rw [hval] at h
    exact Except.noConfusion h

theorem c9_ingestion_atomicity_amended_witness :
    add_data id dh0 [logItem [1] [1, 2] 1] =
      .error (.shapeMismatch, dh0) ∧ dh0 = dh0 :=
  ⟨by decide, c9_ingestion_atomicity_amended dh0 (logItem [1] [1, 2] 1)
    .shapeMismatch dh0 (by decide) (Or.inl rfl)⟩

/-! C4: the overlapping log batch scenario. -/

/-- State after ingesting the first log batch `DEPTH=[10,20,30]`,
values `[1,2,3]`. -/
def dhS1 : DH ℚ :=
  { path := true, vertices := [10, 20, 30], cells := [],
    depthCreated := true, depth := some [10, 20, 30],
    vdata := [[some 1, some 2, some 3]], fromv := none, tov := none,
    cdata := [], odata := [] }

/-- State after then ingesting `depth=[20.001, 40]`, values `[7,8]`,
tolerance `0.01`. -/
def dhS2 : DH ℚ :=
  { path := true, vertices := [10, 20, 30, 40], cells := [],
    depthCreated := true, depth := some [10, 20, 30, 40],
    vdata := [[some 1, some 2, some 3], [none, some 7, none, some 8]],
    fromv := none, tov := none, cdata := [], odata := [] }

/-- C4: on a drillhole with `DEPTH=[10,20,30]`, ingesting a log batch
with `depth=[20.001, 40]` and collocation distance `0.01` creates exactly
one new vertex (for depth `40`), stores the new field's value `7` at the
existing depth-`20` vertex (row 1) while the existing `DEPTH` value `20`
is kept, and grows the vertex count by exactly 1. -/
theorem c4_overlapping_log_batch :
    add_data id dh0 [logItem [10, 20, 30] [1, 2, 3] (1/100)] = .ok dhS1 ∧
    add_data id dhS1 [logItem [20001/1000, 40] [7, 8] (1/100)] =
      .ok dhS2 ∧
    dhS2.vertices.length = dhS1.vertices.length + 1 ∧
    dhS2.vertices = [10, 20, 30, 40] ∧
    dhS2.depth = some [10, 20, 30, 40] ∧
    dhS2.vdata =
      [[some 1, some 2, some 3], [none, some 7, none, some 8]] := by
  decide

/-! C3: segment reuse for interval data. -/

/-- Drillhole with one existing interval batch: segments
`FROM=[0,10]`, `TO=[10,20]` over vertices at depths `[0,10,20]`, one
interval data child with values `[100,200]`. -/
def dhI0 : DH ℚ :=
  { path := true, vertices := [0, 10, 20], cells := [(0, 1), (1, 2)],
    depthCreated := false, depth := none, vdata := [],
    fromv := some [0, 10], tov := some [10, 20],
    cdata := [[some 100, some 200]], odata := [] }

/-- State after re-ingesting the interval `[0,10]` (value `300`,
tolerance `1/10`) into `dhI0`: the existing segment is reused. -/
def dhIReuse : DH ℚ :=
  { dhI0 with cdata := [[some 100, some 200], [some 300, none]] }

/-- State after ingesting the partially matching interval `[0,15]`
(value `300`, tolerance `1/10`) into `dhI0`: one new segment sharing the
existing depth-`0` vertex with a new vertex at depth `15`. -/
def dhIPartial : DH ℚ :=
  { dhI0 with
      vertices := [0, 10, 20, 15]
      cells := [(0, 1), (1, 2), (0, 3)]
      fromv := some [0, 10, 0]
      tov := some [10, 20, 15]
      cdata := [[some 100, some 200], [none, none, some 300]] }

/-- C3: an interval reuses an existing segment exactly when its `from`
endpoint and its `to` endpoint match the SAME existing segment row (the
sentinel columns agree on a non-NaN value); and in the concrete scenario
with `FROM=[0,10]`, `TO=[10,20]`, ingesting `[0,10]` overwrites the
reused segment's value without appending a segment, while ingesting
`[0,15]` appends exactly one segment whose first vertex is the existing
depth-0 vertex and whose second vertex is new at depth 15. -/
theorem c3_interval_segment_reuse :
    (∀ (M : Nat) (fi ti : List (Nat × Nat)) (i : Nat),
      i ∈ sentinelEqRows (colAssign M fi) (colAssign M ti) ↔
        i < M ∧ ∃ j : Nat, (colAssign M fi).getD i none = some j ∧
          (colAssign M ti).getD i none = some j) ∧
    (add_data id dhI0 [intervalItem [[0, 10]] [300] (1/10)] =
        .ok dhIReuse ∧
      dhIReuse.cells = dhI0.cells ∧ dhIReuse.vertices = dhI0.vertices ∧
      dhIReuse.cdata = dhI0.cdata ++ [[some 300, none]]) ∧
    (add_data id dhI0 [intervalItem [[0, 15]] [300] (1/10)] =
        .ok dhIPartial ∧
      dhIPartial.cells = dhI0.cells ++ [(0, 3)] ∧
      dhIPartial.vertices = dhI0.vertices ++ [15] ∧
      dhI0.vertices.getD 0 1 = 0 ∧ dhIPartial.vertices.getD 3 0 = 15 ∧
      dhIPartial.cdata = dhI0.cdata ++ [[none, none, some 300]]) := by
  refine ⟨?_, by decide, by decide⟩
  intro M fi ti i
  have hlen : (colAssign M fi).length = M := by
    rw [colAssign, length_foldl_set_fn Prod.fst (fun ij => some ij.2)]
    exact List.length_replicate _ _
  simp only [sentinelEqRows, List.mem_filter, List.mem_range, hlen]
  refine and_congr_right fun _ => ?_
  rcases h0 : (colAssign M fi).getD i none with _ | a <;>
    rcases h1 : (colAssign M ti).getD i none with _ | b <;> simp
  exact eq_comm

theorem c3_interval_segment_reuse_witness :
    1 ∈ sentinelEqRows (colAssign 2 [(1, 0)]) (colAssign 2 [(1, 0)]) ∧
      dhIReuse.cells = dhI0.cells :=
  ⟨(c3_interval_segment_reuse.1 2 [(1, 0)] [(1, 0)] 1).mpr
      ⟨by decide, 0, by decide, by decide⟩,
    c3_interval_segment_reuse.2.1.2.1⟩

/-! C1: the log-ingestion invariant. -/

lemma npDelete_nil_cols [Inhabited α] (l : List α) : npDelete l [] = l := by
  rw [npDelete_eq_map_filter]
  have h : (List.range l.length).filter
      (fun k => decide (k ∉ ([] : List Nat))) = List.range l.length :=
    List.filter_eq_self.mpr (by simp)
  rw [h, map_getD_range]

/-- Inversion of a successful `merge_arrays` call. -/
lemma merge_arrays_inv {head tail R : List ℚ} {m : List (Nat × Nat)}
    {ε : ℚ} (h : merge_arrays head tail ε = some (R, m)) :
    match_values head tail ε = some m ∧
      R = mergeApply head tail m false := by
  unfold merge_arrays at h
  cases hmv : match_values head tail ε with
  | none => rw [hmv] at h; exact absurd h (by simp)
  | some L =>
    rw [hmv] at h
    have hpair : (mergeApply head tail L false, L) = (R, m) :=
      Option.some_inj.mp (by simpa using h)
    obtain ⟨h1, h2⟩ := (Prod.mk.injEq _ _ _ _).mp hpair
    subst h2
    exact ⟨rfl, h1.symm⟩

/-- A successful merge into a nonempty head yields a nonempty result that
contains, within `ε`, every value of the batch. -/
lemma merge_result_covers {head tail R : List ℚ} {m : List (Nat × Nat)}
    {ε : ℚ} (hε : 0 < ε) (hhead : head ≠ [])
    (h : merge_arrays head tail ε = some (R, m)) :
    R ≠ [] ∧ ∀ j < tail.length, ∃ v ∈ R, |v - tail.getD j 0| < ε := by
  obtain ⟨hmv, hR⟩ := merge_arrays_inv h
  constructor
  · rw [hR]
    unfold mergeApply
    by_cases hm0 : m.length = 0
    · rw [if_pos hm0]; simp [List.append_eq_nil, hhead]
    · rw [if_neg hm0]; simp [List.append_eq_nil, hhead]
  · intro j hj
    by_cases hjm : j ∈ m.map Prod.snd
    · obtain ⟨pr, hpr, hpr2⟩ := List.mem_map.mp hjm
      obtain ⟨h1, h2, h3, -⟩ := match_values_mem_spec hmv hpr
      refine ⟨head.getD pr.1 0, ?_, by rw [hpr2] at h3; exact h3⟩
      have hmemh : head.getD pr.1 0 ∈ head := by
        rw [List.getD_eq_getElem head 0 h1]; exact List.getElem_mem h1
      rw [hR]
      unfold mergeApply
      by_cases hm0 : m.length = 0
      · rw [if_pos hm0]; exact List.mem_append.mpr (Or.inl hmemh)
      · rw [if_neg hm0]; exact List.mem_append.mpr (Or.inl hmemh)
    · refine ⟨tail.getD j 0, ?_, by simpa using hε⟩
      rw [hR]
      unfold mergeApply
      by_cases hm0 : m.length = 0
      · rw [if_pos hm0]
        refine List.mem_append.mpr (Or.inr ?_)
        rw [List.getD_eq_getElem tail 0 hj]; exact List.getElem_mem hj
      · rw [if_neg hm0]
        exact List.mem_append.mpr (Or.inr (getD_mem_npDelete hj hjm))

/-- Facts extracted from a successful `validate_log_data` call: the
length contract, the frame, coverage of the batch by the new `DEPTH`
array, and (under the length invariant of the input state) the length
accounting for the new arrays. -/
lemma vlog_ok_facts {s s1 : DH ℚ} {dep vals : List ℚ} {ε : ℚ}
    {v : List (Option ℚ)} (hε : 0 < ε)
    (h : validate_log_data id s dep vals ε = .ok (s1, v)) :
    dep.length = vals.length ∧ s.path = true ∧ s1.path = true ∧
    s1.cells = s.cells ∧ s1.vdata = s.vdata ∧
    ∃ D, s1.depth = some D ∧
      (∀ j < dep.length, ∃ u ∈ D, |u - dep.getD j 0| < ε) ∧
      ((∀ d', s.depth = some d' → d'.length = s.vertices.length) →
        D.length = s1.vertices.length ∧ v.length = s1.vertices.length ∧
        s.vertices.length ≤ s1.vertices.length) := by
  by_cases hlen : dep.length = vals.length
  case neg =>
    rw [vlog_eq_shape id s ε hlen] at h
    exact Except.noConfusion h
  cases hdp : s.depth with
  | none =>
    cases hpath : s.path with
    | false =>
      rw [vlog_eq_nopath_first id s ε hlen hdp hpath] at h
      exact Except.noConfusion h
    | true =>
      by_cases hv : s.vertices = []
      case neg =>
        rw [vlog_eq_first_nan id s ε hlen hdp hpath hv] at h
        exact Except.noConfusion h
      · rw [vlog_eq_first id s ε hlen hdp hpath hv] at h
        obtain ⟨hs1, hval⟩ := (Prod.mk.injEq _ _ _ _).mp (Except.ok.inj h)
        subst hs1 hval
        refine ⟨hlen, rfl, hpath, rfl, rfl, dep, rfl, ?_, ?_⟩
        · intro j hj
          refine ⟨dep.getD j 0, ?_, by simpa using hε⟩
          rw [List.getD_eq_getElem dep 0 hj]
          exact List.getElem_mem hj
        · intro _
          refine ⟨?_, ?_, ?_⟩
          · show dep.length = (dep.map id).length
            rw [List.length_map]
          · show (vals.map some).length = (dep.map id).length
            rw [List.length_map, List.length_map, hlen]
          · rw [hv]
            exact Nat.zero_le _
  | some d =>
    cases hmv : merge_arrays d dep ε with
    | none =>
      rw [vlog_eq_merge_none id s hlen hdp hmv] at h
      exact Except.noConfusion h
    | some Rm =>
      obtain ⟨R, m⟩ := Rm
      cases hpath : s.path with
      | false =>
        rw [vlog_eq_nopath_merge id s hlen hdp hpath hmv] at h
        exact Except.noConfusion h
      | true =>
        rw [vlog_eq_merge id s hlen hdp hpath hmv] at h
        obtain ⟨hs1, hval⟩ := (Prod.mk.injEq _ _ _ _).mp (Except.ok.inj h)
        subst hs1 hval
        obtain ⟨-, hR⟩ := merge_arrays_inv hmv
        have hRlen : R.length =
            d.length + (npDelete dep (m.map Prod.snd)).length := by
          rw [hR, length_mergeApply]
          by_cases hm0 : m.length = 0
          · rw [if_pos hm0]
            congr 1
            rw [List.length_eq_zero] at hm0
            subst hm0
            rw [List.map_nil, npDelete_nil_cols]
          · rw [if_neg hm0]
        have hvlen :
            (mergeApply (List.replicate s.vertices.length
              (none : Option ℚ)) (vals.map some) m true).length =
            s.vertices.length + (npDelete dep (m.map Prod.snd)).length := by
          rw [length_mergeApply, List.length_replicate]
          by_cases hm0 : m.length = 0
          · rw [if_pos hm0]
            congr 1
            rw [List.length_eq_zero] at hm0
            subst hm0
            rw [List.map_nil, npDelete_nil_cols, List.length_map, hlen]
          · rw [if_neg hm0]
            congr 1
            exact length_npDelete_congr
              (by rw [List.length_map, hlen]) _
        have hvertlen :
            (s.vertices ++ (npDelete dep (m.map Prod.snd)).map id).length =
            s.vertices.length + (npDelete dep (m.map Prod.snd)).length := by
          rw [List.length_append, List.length_map]
        refine ⟨hlen, rfl, hpath, rfl, rfl, R, rfl, ?_, ?_⟩
        · intro j hj
          by_cases hdne : d = []
          · subst hdne
            by_cases hdep : dep = []
            · subst hdep
              simp at hj
            · have : match_values ([] : List ℚ) dep ε = none :=
                match_values_nil_left hdep
              have hnone : merge_arrays ([] : List ℚ) dep ε = none := by
                unfold merge_arrays
                rw [this]
                rfl
              rw [hnone] at hmv
              exact Option.noConfusion hmv
          · exact (merge_result_covers hε hdne hmv).2 j hj
        · intro hinv
          have hd0 : d.length = s.vertices.length := hinv d rfl
          refine ⟨?_, ?_, ?_⟩
          · show R.length = _
            rw [hRlen, hvertlen, hd0]
          · rw [hvlen, hvertlen]
          · rw [hvertlen]
            exact Nat.le_add_right _ _

/-- The possible states carried by a `validate_log_data` exception, when
pre-existing vertices imply an existing `DEPTH` child: the input state,
possibly with the `DEPTH` child already created. -/
lemma vlog_err_states {dsv : ℚ → V} {s s' : DH V} {dep vals : List ℚ}
    {ε : ℚ} {e : IngestError}
    (h : validate_log_data dsv s dep vals ε = .error (e, s'))
    (hfb : s.depth = none → s.vertices = []) :
    s' = s ∨ s' = { s with depthCreated := true } := by
  by_cases hlen : dep.length = vals.length
  · cases hdp : s.depth with
    | none =>
      cases hpath : s.path with
      | false =>
        rw [vlog_eq_nopath_first dsv s ε hlen hdp hpath] at h
        have heq :=
          (((Prod.mk.injEq _ _ _ _).mp (Except.error.inj h)).2).symm
        rw [hdp, hpath] at heq
        exact Or.inr heq
      | true =>
        rw [vlog_eq_first dsv s ε hlen hdp hpath (hfb hdp)] at h
        exact Except.noConfusion h
    | some d =>
      cases hmv : merge_arrays d dep ε with
      | none =>
        rw [vlog_eq_merge_none dsv s hlen hdp hmv] at h
        have heq :=
          (((Prod.mk.injEq _ _ _ _).mp (Except.error.inj h)).2).symm
        rw [hdp] at heq
        exact Or.inr heq
      | some Rm =>
        obtain ⟨R, m⟩ := Rm
        cases hpath : s.path with
        | false =>
          rw [vlog_eq_nopath_merge dsv s hlen hdp hpath hmv] at h
          have heq :=
            (((Prod.mk.injEq _ _ _ _).mp (Except.error.inj h)).2).symm
          rw [hdp, hpath] at heq
          exact Or.inr heq
        | true =>
          rw [vlog_eq_merge dsv s hlen hdp hpath hmv] at h
          exact Except.noConfusion h
  · rw [vlog_eq_shape dsv s ε hlen] at h
    exact Or.inl
      (((Prod.mk.injEq _ _ _ _).mp (Except.error.inj h)).2).symm

/-- The states reachable by sequences of log-data ingestions: collar and
surveys set, no cells, vertices paired with a sorted `DEPTH` array of the
same length, and per-vertex data arrays no longer than the vertex
count. -/
def LogReach (s : DH ℚ) : Prop :=
  s.path = true ∧ s.cells = [] ∧
  (s.depth = none → s.vertices = [] ∧ s.vdata = []) ∧
  (∀ d, s.depth = some d →
    d.Chain' (· ≤ ·) ∧ d.length = s.vertices.length) ∧
  (∀ a ∈ s.vdata, a.length ≤ s.vertices.length)

lemma logReach_dh0 : LogReach dh0 := by
  refine ⟨rfl, rfl, fun _ => ⟨rfl, rfl⟩, fun d hd => ?_, fun a ha => ?_⟩
  · exact absurd hd (by simp [dh0])
  · exact absurd ha (by simp [dh0])

/-- The depth-sort pass restores the reachability invariant from its
pre-sort obligations. -/
lemma sort_depths_logReach {t : DH ℚ} {D : List ℚ}
    (hd : t.depth = some D) (hpath : t.path = true) (hcells : t.cells = [])
    (hlen : D.length = t.vertices.length)
    (hvd : ∀ a ∈ t.vdata, a.length ≤ t.vertices.length) :
    LogReach (sort_depths t) := by
  rw [sort_depths_eq t D hd]
  by_cases hnd : isNonDecreasing D = true
  · rw [if_pos hnd]
    refine ⟨hpath, hcells, ?_, ?_, hvd⟩
    · intro hn
      rw [hd] at hn
      exact Option.noConfusion hn
    · intro d' hd'
      rw [hd] at hd'
      rw [← Option.some_inj.mp hd']
      exact ⟨(isNonDecreasing_iff D).mp hnd, hlen⟩
  · rw [if_neg hnd]
    have hDne : D ≠ [] := fun hD => hnd (by subst hD; rfl)
    have hvne : ¬ t.vertices.isEmpty = true := by
      rw [List.isEmpty_iff]
      intro hv
      rw [hv] at hlen
      exact hDne (List.eq_nil_of_length_eq_zero (by simpa using hlen))
    have hplen : (argsort D).length = D.length := length_argsort D
    refine ⟨hpath, ?_, ?_, ?_, ?_⟩
    · show t.cells.map _ = []
      rw [hcells]
      rfl
    · intro hn
      exact Option.noConfusion hn
    · intro d' hd'
      rw [← Option.some_inj.mp hd']
      refine ⟨permuteIdx_argsort_sorted D, ?_⟩
      show (permuteIdx (argsort D) D).length =
        (if t.vertices.isEmpty then t.vertices
          else permuteIdx (argsort D) t.vertices).length
      rw [if_neg hvne, length_permuteIdx, length_permuteIdx]
    · intro a ha
      obtain ⟨a0, ha0, haeq⟩ := List.mem_map.mp ha
      subst haeq
      show (permuteIdx (argsort D) _).length ≤
        (if t.vertices.isEmpty then t.vertices
          else permuteIdx (argsort D) t.vertices).length
      rw [if_neg hvne, length_permuteIdx, length_permuteIdx]

/-- One log-batch step preserves the reachability invariant. -/
lemma logStep_logReach {s : DH ℚ} (b : List ℚ × List ℚ × ℚ)
    (hr : LogReach s) : LogReach (logStep s b) := by
  obtain ⟨hpath, hcells, hnone, hsome, hvd⟩ := hr
  obtain ⟨dep, vals, ε⟩ := b
  unfold logStep
  by_cases hε : 0 < ε
  · cases hval : validate_log_data id s dep vals ε with
    | error es =>
      obtain ⟨e0, s0⟩ := es
      rw [add_data_log_err hε hval]
      show LogReach s0
      rcases vlog_err_states hval (fun hn => (hnone hn).1) with hh | hh
      · rw [hh]
        exact ⟨hpath, hcells, hnone, hsome, hvd⟩
      · rw [hh]
        exact ⟨hpath, hcells, hnone, hsome, hvd⟩
    | ok sv =>
      obtain ⟨s1, v⟩ := sv
      rw [add_data_log_ok hε hval]
      show LogReach (sort_depths { s1 with vdata := s1.vdata ++ [v] })
      obtain ⟨hlen, -, hpath1, hc1, hvd1, D, hD, -, hlens⟩ :=
        vlog_ok_facts hε hval
      have hlenD := hlens fun d' hd' => (hsome d' hd').2
      refine sort_depths_logReach hD hpath1
        (hc1.trans hcells) hlenD.1 ?_
      intro a ha
      show a.length ≤ s1.vertices.length
      rcases List.mem_append.mp ha with h1 | h2
      · rw [hvd1] at h1
        exact le_trans (hvd a h1) hlenD.2.2
      · rw [List.mem_singleton] at h2
        subst h2
        exact le_of_eq hlenD.2.1
  · rw [add_data_log_tol_err s dep vals hε]
    exact ⟨hpath, hcells, hnone, hsome, hvd⟩

/-- The state reached by two log ingestions where the second batch merges
into sorted position: the sort pass does not run, so the first data
child's array is never padded to the new vertex count. -/
def dhC1 : DH ℚ :=
  [([10, 20], ([1, 2], (1 : ℚ)/100)),
    ([10, 30], ([5, 6], (1 : ℚ)/100))].foldl logStep dh0

/-- C1 counterexample: after two successful log ingestions the drillhole
has 3 vertices but the first data child still holds 2 values — the claim
that EVERY per-vertex data array's length equals the vertex count fails
(padding only happens when a sort pass runs). -/
theorem c1_log_invariant_counterexample :
    dhC1.vertices.length = 3 ∧ dhC1.depth = some [10, 20, 30] ∧
    dhC1.vdata = [[some 1, some 2], [some 5, none, some 6]] ∧
    ∃ a ∈ dhC1.vdata, a.length ≠ dhC1.vertices.length := by
  decide

/-- C1 (amended): after any sequence of log-data ingestions through
`add_data` from the empty drillhole, the `DEPTH` array is non-decreasing
and has exactly one entry per vertex, every cell index is in range
(vacuously: log ingestion creates no cells), and every per-vertex data
array has AT MOST one entry per vertex (equality can fail for previously
ingested fields, which are padded only when a sort pass runs). -/
theorem c1_log_invariant_amended (bs : List (List ℚ × List ℚ × ℚ)) :
    (bs.foldl logStep dh0).path = true ∧
    (bs.foldl logStep dh0).cells = [] ∧
    (∀ d, (bs.foldl logStep dh0).depth = some d →
      d.Chain' (· ≤ ·) ∧
        d.length = (bs.foldl logStep dh0).vertices.length) ∧
    (∀ a ∈ (bs.foldl logStep dh0).vdata,
      a.length ≤ (bs.foldl logStep dh0).vertices.length) ∧
    (∀ c ∈ (bs.foldl logStep dh0).cells,
      c.1 < (bs.foldl logStep dh0).vertices.length ∧
      c.2 < (bs.foldl logStep dh0).vertices.length) := by
  have main : ∀ (l : List (List ℚ × List ℚ × ℚ)) (s : DH ℚ),
      LogReach s → LogReach (l.foldl logStep s) := by
    intro l
    induction l with
    | nil => intro s h; exact h
    | cons b t ih =>
      intro s h
      rw [List.foldl_cons]
      exact ih _ (logStep_logReach b h)
  obtain ⟨h1, h2, h3, h4, h5⟩ := main bs dh0 logReach_dh0
  refine ⟨h1, h2, h4, h5, ?_⟩
  intro c hc
  rw [h2] at hc
  simp at hc

theorem c1_log_invariant_amended_witness :
    List.Chain' (· ≤ ·) [(10 : ℚ), 20] ∧
      ([(10 : ℚ), 20] : List ℚ).length =
        ([([10, 20], ([1, 2], (1 : ℚ)/100))].foldl
          logStep dh0).vertices.length :=
  (c1_log_invariant_amended
    [([10, 20], ([1, 2], (1 : ℚ)/100))]).2.2.1 [10, 20] (by decide)

/-! C5: merge idempotence and re-ingestion. -/

/-- Re-ingesting the same batch into a drillhole whose sorted `DEPTH`
array already covers every batch value (within `ε`) succeeds and changes
neither the vertices, nor the cells, nor the depths. -/
lemma reingest_fixed {u : DH ℚ} {Du dep vals : List ℚ} {ε : ℚ}
    (hε : 0 < ε) (hlen : dep.length = vals.length)
    (hu : u.depth = some Du) (hupath : u.path = true)
    (hchain : Du.Chain' (· ≤ ·))
    (hcov : ∀ j < dep.length, ∃ w ∈ Du, |w - dep.getD j 0| < ε) :
    ∃ s2, add_data id u [logItem dep vals ε] = .ok s2 ∧
      s2.vertices = u.vertices ∧ s2.cells = u.cells ∧
      s2.depth = u.depth := by
  have hmain : ∃ m', merge_arrays Du dep ε = some (Du, m') ∧
      npDelete dep (m'.map Prod.snd) = [] := by
    by_cases hdep : dep = []
    · subst hdep
      refine ⟨[], ?_, rfl⟩
      unfold merge_arrays
      have hmv0 : match_values Du [] ε = some [] := rfl
      rw [hmv0]
      show some (mergeApply Du [] [] false, []) = some (Du, [])
      have happ : mergeApply Du [] [] false = Du := by
        simp [mergeApply]
      rw [happ]
    · have hDune : Du ≠ [] := by
        obtain ⟨w, hw, -⟩ := hcov 0 (by
          cases dep with
          | nil => exact absurd rfl hdep
          | cons a t => exact Nat.succ_pos _)
        intro hD0
        rw [hD0] at hw
        simp at hw
      obtain ⟨m', hm', hmem'⟩ := merge_arrays_self hDune hcov
      exact ⟨m', hm', npDelete_eq_nil fun k hk => hmem' k hk⟩
  obtain ⟨m', hm', hdel⟩ := hmain
  have hadd := add_data_log_ok hε (vlog_eq_merge id u hlen hu hupath hm')
  rw [sort_depths_eq _ Du rfl,
    if_pos ((isNonDecreasing_iff Du).mpr hchain)] at hadd
  refine ⟨_, hadd, ?_, rfl, hu.symm⟩
  show u.vertices ++ List.map id (npDelete dep (List.map Prod.snd m'))
    = u.vertices
  rw [hdel, List.map_nil, List.append_nil]

/-- C5: merging the same batch twice with the same tolerance yields the
same array as merging once (the second merge is the identity on the
merged array); and re-ingesting an identical log batch into a drillhole
adds no vertices, no cells and no depth entries. -/
theorem c5_merge_idempotence :
    (∀ (head tail R : List ℚ) (m : List (Nat × Nat)) (ε : ℚ), 0 < ε →
      merge_arrays head tail ε = some (R, m) →
      ∃ m', merge_arrays R tail ε = some (R, m')) ∧
    (∀ (s s1 : DH ℚ) (dep vals : List ℚ) (ε : ℚ),
      add_data id s [logItem dep vals ε] = .ok s1 →
      ∃ s2, add_data id s1 [logItem dep vals ε] = .ok s2 ∧
        s2.vertices = s1.vertices ∧ s2.cells = s1.cells ∧
        s2.depth = s1.depth) := by
  constructor
  · intro head tail R m ε hε h
    obtain ⟨m', hm', -⟩ := merge_idempotent hε h
    exact ⟨m', hm'⟩
  · intro s s1 dep vals ε h
    by_cases hε : 0 < ε
    case neg =>
      rw [add_data_log_tol_err s dep vals hε] at h
      exact Except.noConfusion h
    cases hval : validate_log_data id s dep vals ε with
    | error es =>
      rw [add_data_log_err hε hval] at h
      exact Except.noConfusion h
    | ok sv =>
      obtain ⟨t, v⟩ := sv
      rw [add_data_log_ok hε hval] at h
      have hs1 : s1 = sort_depths { t with vdata := t.vdata ++ [v] } :=
        (Except.ok.inj h).symm
      obtain ⟨hlen, -, hpatht, -, -, D, hD, hcov, -⟩ := vlog_ok_facts hε hval
      have ht'd : ({ t with vdata := t.vdata ++ [v] } : DH ℚ).depth
          = some D := hD
      rw [sort_depths_eq _ D ht'd] at hs1
      by_cases hnd : isNonDecreasing D = true
      · rw [if_pos hnd] at hs1
        subst hs1
        exact reingest_fixed hε hlen hD hpatht
          ((isNonDecreasing_iff D).mp hnd) hcov
      · rw [if_neg hnd] at hs1
        subst hs1
        have hperm : List.Perm (permuteIdx (argsort D) D) D :=
          argsortVals_perm D
        refine reingest_fixed hε hlen rfl hpatht
          (permuteIdx_argsort_sorted D) ?_
        intro j hj
        obtain ⟨w, hw, hwd⟩ := hcov j hj
        exact ⟨w, hperm.mem_iff.mpr hw, hwd⟩

theorem c5_merge_idempotence_witness :
    ∃ m', merge_arrays [(10 : ℚ), 20, 30, 40] [20001/1000, 40] (1/100) =
      some ([(10 : ℚ), 20, 30, 40], m') :=
  c5_merge_idempotence.1 [10, 20, 30] [20001/1000, 40] [10, 20, 30, 40]
    [(1, 0)] (1/100) (by decide) (by decide)

end Geoh5
